import Mathlib

set_option maxRecDepth 16384

/-!
Verification of the `create_chapter1_epub.py` EPUB assembly pipeline.

This file shallowly embeds the functions of `src/create_chapter1_epub.py`
into Lean 4 and proves (or refutes) the frozen specification claims about
them.  Python strings are modelled as Lean `String`/`List Char` (code
points, matching CPython's `str`); byte strings as `List Nat` with values
below 256; the network, the image directory and the statistics dictionary
are threaded explicitly as state.  Character class predicates (whitespace,
case mapping) are modelled on the ASCII range, which is the range the
program's fixed patterns (`[^a-z0-9]`, `[0-9]`, literal brand names) and
all inputs considered here exercise; the one place where non-ASCII
behaviour of CPython is load-bearing (`str.isdigit` / `int` disagreeing on
superscript digits) is modelled explicitly and documented at the
definition.
-/

namespace Epub

/-! ## Python string primitives -/

/-- Whitespace characters recognised by `str.strip()` / `str.split()`
(ASCII part: space, tab, newline, carriage return, vertical tab, form feed). -/
def pySpace (c : Char) : Bool :=
  c = ' ' ∨ c = '\t' ∨ c = '\n' ∨ c = '\r' ∨ c = '\x0b' ∨ c = '\x0c'

/-- Python `str.strip()` on the character list: drop leading and trailing whitespace. -/
def pyStripL (l : List Char) : List Char :=
  ((l.dropWhile pySpace).reverse.dropWhile pySpace).reverse

/-- Python `str.strip()`. -/
def pyStrip (s : String) : String := ⟨pyStripL s.data⟩

/-- CPython `str.lower` restricted to ASCII (`A`-`Z` map to `a`-`z`). -/
def pyLowerChar (c : Char) : Char := c.toLower

/-- Python `str.lower()` on a character list. -/
def pyLowerL (l : List Char) : List Char := l.map pyLowerChar

/-- Python `str.lower()`. -/
def pyLower (s : String) : String := ⟨pyLowerL s.data⟩

/-- Accumulator-based scanner for `str.split()`; `acc` is the current word,
reversed. -/
def splitWsAux : List Char → List Char → List (List Char)
  | [], acc => if acc.isEmpty then [] else [acc.reverse]
  | c :: r, acc =>
    if pySpace c then
      if acc.isEmpty then splitWsAux r [] else acc.reverse :: splitWsAux r []
    else splitWsAux r (c :: acc)

/-- Python `str.split()` with no argument: maximal runs of non-whitespace characters. -/
def pySplitWsL (l : List Char) : List (List Char) := splitWsAux l []

/-- Python `str.capitalize()` on a word (ASCII model): first character upper-cased,
the rest lower-cased. -/
def pyCapitalizeL (w : List Char) : List Char :=
  match w with
  | [] => []
  | c :: r => c.toUpper :: r.map pyLowerChar

/-- Python `' '.join(words)`. -/
def joinSpaceL : List (List Char) → List Char
  | [] => []
  | [w] => w
  | w :: ws => w ++ ' ' :: joinSpaceL ws

/-- Python `str.replace(old, new)` for single-character old/new. -/
def pyReplaceCharL (a b : Char) (l : List Char) : List Char :=
  l.map (fun c => if c = a then b else c)

/-- Python `str.startswith(p)`: test on character lists. -/
def listLeads : List Char → List Char → Bool
  | [], _ => true
  | _ :: _, [] => false
  | a :: ps, b :: ss => a = b && listLeads ps ss

/-- Python `s.startswith(p)`. -/
def leadsWith (p s : String) : Bool := listLeads p.data s.data

/-! ## `os.path` helpers

`os.path.basename` (POSIX): everything after the last `/`.
`os.path.splitext`: the extension starts at the last dot of the basename,
provided some non-dot character of the basename precedes it. -/

/-- Characters after the last `/`. -/
def baseNameL (l : List Char) : List Char :=
  ((l.reverse.takeWhile (fun c => c ≠ '/')).reverse)

/-- Python `os.path.basename`. -/
def baseName (s : String) : String := ⟨baseNameL s.data⟩

/-- Index (from the right) helpers for splitext: the trailing block of the
basename starting at its last dot, or `[]` when the dot does not begin a
proper extension.  CPython rule: `p.rfind('.')` must be after `p.rfind('/')`
and some character strictly between them must not be a dot. -/
def splitExtExtL (l : List Char) : List Char :=
  let base := baseNameL l
  -- candidate extension: from the last '.' of the basename to the end
  let revBase := base.reverse
  let candidate := (revBase.takeWhile (fun c => c ≠ '.')).reverse
  if revBase.length = candidate.length then
    []  -- no dot in the basename at all
  else
    -- stem = everything before that last dot; the dot begins an extension
    -- only if the stem contains a non-dot character
    let stem := base.take (base.length - candidate.length - 1)
    if stem.any (fun c => c ≠ '.') then '.' :: candidate else []

/-- Python `os.path.splitext(p)[1]`. -/
def splitExtExt (s : String) : String := ⟨splitExtExtL s.data⟩

/-- Python `os.path.splitext(p)[0]`. -/
def splitExtRootL (l : List Char) : List Char :=
  l.take (l.length - (splitExtExtL l).length)

/-- Python `os.path.splitext(p)[0]`. -/
def splitExtRoot (s : String) : String := ⟨splitExtRootL s.data⟩

/-! ## `urllib.parse.urlparse(url).path`

Model of the relevant slice of `urlsplit`: an optional scheme (a leading
alphabetic character followed by alphanumerics or `+`/`-`/`.`, up to a `:`)
is removed; if the remainder starts with `//` the authority extends to the
next `/`, `?` or `#`; the path is then everything up to the first `?` or
`#`. -/

/-- Characters allowed in a URL scheme after the first one. -/
def schemeChar (c : Char) : Bool :=
  c.isAlpha ∨ c.isDigit ∨ c = '+' ∨ c = '-' ∨ c = '.'

/-- Does the list start with `scheme:` for a well-formed scheme?  If so,
return the remainder after the colon. -/
def dropScheme (l : List Char) : List Char :=
  let pre := l.takeWhile (fun c => c ≠ ':')
  if pre.length < l.length ∧ pre ≠ [] ∧
      (pre.headI.isAlpha) ∧ pre.all schemeChar then
    l.drop (pre.length + 1)
  else l

/-- Python `urlparse(url).path`. -/
def urlPathL (l : List Char) : List Char :=
  let rest := dropScheme l
  let afterNetloc :=
    match rest with
    | '/' :: '/' :: r => r.dropWhile (fun c => c ≠ '/' ∧ c ≠ '?' ∧ c ≠ '#')
    | _ => rest
  afterNetloc.takeWhile (fun c => c ≠ '?' ∧ c ≠ '#')

/-- Python `urlparse(url).path`. -/
def urlPath (s : String) : String := ⟨urlPathL s.data⟩

/-! ## `get_safe_filename` -/

/-- Is `c` in the regex class `[a-z0-9]`? -/
def slugKeep (c : Char) : Bool := ('a' ≤ c ∧ c ≤ 'z') ∨ ('0' ≤ c ∧ c ≤ '9')

/-- Scanner for `re.sub(r'[^a-z0-9]+', '-', l)`; the flag records whether we
are inside a run of replaced characters whose hyphen was already emitted. -/
def slugSubAux : Bool → List Char → List Char
  | _, [] => []
  | inRun, c :: r =>
    if slugKeep c then c :: slugSubAux false r
    else if inRun then slugSubAux true r
    else '-' :: slugSubAux true r

/-- Python `re.sub(r'[^a-z0-9]+', '-', l)`: each maximal run of characters outside
`[a-z0-9]` becomes a single hyphen. -/
def slugSubL (l : List Char) : List Char := slugSubAux false l

/-- The extension allow-list of `get_safe_filename` (matched case-sensitively). -/
def extAllowList : List String := [".jpg", ".jpeg", ".png", ".gif", ".svg"]

/-- The extension chosen by `get_safe_filename` for a URL:
`os.path.splitext(urlparse(url).path)[1]` when in the allow-list, else `.jpg`. -/
def chooseExt (url : String) : String :=
  let ext := splitExtExt (urlPath url)
  if ext ∈ extAllowList then ext else ".jpg"

/-- The alt-text part of `get_safe_filename`:
`re.sub(r'[^a-z0-9]+', '-', alt_text.lower())[:50]`. -/
def slug50 (alt : String) : String := ⟨(slugSubL (pyLowerL alt.data)).take 50⟩

/-! ## MD5 (`hashlib.md5(url.encode()).hexdigest()`)

Bytes are `Nat` below 256, 32-bit words are `Nat` reduced modulo `2^32`.
This is the standard RFC 1321 algorithm; two test vectors are checked
below. -/

/-- The constant `2^32`. -/
def w32 : Nat := 4294967296

/-- Addition modulo `2^32`. -/
def add32 (a b : Nat) : Nat := (a + b) % w32

/-- Bitwise complement on 32 bits. -/
def not32 (a : Nat) : Nat := 4294967295 - a % w32

/-- Left rotation on 32 bits. -/
def rotl32 (x n : Nat) : Nat :=
  ((x % w32) * 2 ^ n + (x % w32) / 2 ^ (32 - n)) % w32

/-- The 64 MD5 sine-derived constants. -/
def md5K : List Nat :=
  [0xd76aa478, 0xe8c7b756, 0x242070db, 0xc1bdceee,
   0xf57c0faf, 0x4787c62a, 0xa8304613, 0xfd469501,
   0x698098d8, 0x8b44f7af, 0xffff5bb1, 0x895cd7be,
   0x6b901122, 0xfd987193, 0xa679438e, 0x49b40821,
   0xf61e2562, 0xc040b340, 0x265e5a51, 0xe9b6c7aa,
   0xd62f105d, 0x02441453, 0xd8a1e681, 0xe7d3fbc8,
   0x21e1cde6, 0xc33707d6, 0xf4d50d87, 0x455a14ed,
   0xa9e3e905, 0xfcefa3f8, 0x676f02d9, 0x8d2a4c8a,
   0xfffa3942, 0x8771f681, 0x6d9d6122, 0xfde5380c,
   0xa4beea44, 0x4bdecfa9, 0xf6bb4b60, 0xbebfbc70,
   0x289b7ec6, 0xeaa127fa, 0xd4ef3085, 0x04881d05,
   0xd9d4d039, 0xe6db99e5, 0x1fa27cf8, 0xc4ac5665,
   0xf4292244, 0x432aff97, 0xab9423a7, 0xfc93a039,
   0x655b59c3, 0x8f0ccc92, 0xffeff47d, 0x85845dd1,
   0x6fa87e4f, 0xfe2ce6e0, 0xa3014314, 0x4e0811a1,
   0xf7537e82, 0xbd3af235, 0x2ad7d2bb, 0xeb86d391]

/-- The 64 MD5 per-round shift amounts. -/
def md5S : List Nat :=
  [7, 12, 17, 22, 7, 12, 17, 22, 7, 12, 17, 22, 7, 12, 17, 22,
   5, 9, 14, 20, 5, 9, 14, 20, 5, 9, 14, 20, 5, 9, 14, 20,
   4, 11, 16, 23, 4, 11, 16, 23, 4, 11, 16, 23, 4, 11, 16, 23,
   6, 10, 15, 21, 6, 10, 15, 21, 6, 10, 15, 21, 6, 10, 15, 21]

/-- Message word index used at step `i`. -/
def md5G (i : Nat) : Nat :=
  if i < 16 then i
  else if i < 32 then (5 * i + 1) % 16
  else if i < 48 then (3 * i + 5) % 16
  else (7 * i) % 16

/-- Round function used at step `i`. -/
def md5F (i b c d : Nat) : Nat :=
  if i < 16 then Nat.lor (Nat.land b c) (Nat.land (not32 b) d)
  else if i < 32 then Nat.lor (Nat.land d b) (Nat.land (not32 d) c)
  else if i < 48 then Nat.xor b (Nat.xor c d)
  else Nat.xor c (Nat.lor b (not32 d))

/-- One MD5 step on state `(a, b, c, d)` with message words `M`. -/
def md5Step (M : List Nat) (i : Nat) : Nat × Nat × Nat × Nat → Nat × Nat × Nat × Nat
  | (a, b, c, d) =>
    let f := md5F i b c d
    let k := md5K.getD i 0
    let s := md5S.getD i 0
    let m := M.getD (md5G i) 0
    let a' := add32 b (rotl32 (add32 (add32 a f) (add32 k m)) s)
    (d, a', b, c)

/-- Run steps `i, i+1, ...` for `fuel` steps. -/
def md5Steps (M : List Nat) : Nat → Nat → Nat × Nat × Nat × Nat → Nat × Nat × Nat × Nat
  | _, 0, st => st
  | i, fuel + 1, st => md5Steps M (i + 1) fuel (md5Step M i st)

/-- Load four little-endian bytes into a word. -/
def word32OfBytes (b0 b1 b2 b3 : Nat) : Nat :=
  b0 + 256 * b1 + 65536 * b2 + 16777216 * b3

/-- Group a byte list into 32-bit little-endian words. -/
def bytesToWords : List Nat → List Nat
  | b0 :: b1 :: b2 :: b3 :: r => word32OfBytes b0 b1 b2 b3 :: bytesToWords r
  | _ => []

/-- Process one 64-byte block. -/
def md5Block (st : Nat × Nat × Nat × Nat) (block : List Nat) : Nat × Nat × Nat × Nat :=
  let M := bytesToWords block
  let (a, b, c, d) := st
  let (a', b', c', d') := md5Steps M 0 64 (a, b, c, d)
  (add32 a a', add32 b b', add32 c c', add32 d d')

/-- Split a byte list into 64-byte chunks (`fuel` bounds the recursion and is
instantiated with the list length, which always suffices). -/
def chunks64Aux : Nat → List Nat → List (List Nat)
  | 0, _ => []
  | _, [] => []
  | fuel + 1, l => l.take 64 :: chunks64Aux fuel (l.drop 64)

/-- Split a byte list into 64-byte chunks. -/
def chunks64 (l : List Nat) : List (List Nat) := chunks64Aux l.length l

/-- Little-endian encoding of `n` on `k` bytes. -/
def leBytes : Nat → Nat → List Nat
  | 0, _ => []
  | k + 1, n => n % 256 :: leBytes k (n / 256)

/-- MD5 padding: `0x80`, zeros to 56 mod 64, then the 64-bit bit length. -/
def md5Pad (msg : List Nat) : List Nat :=
  let len := msg.length
  let zeros := (119 - len % 64) % 64
  msg ++ 0x80 :: List.replicate zeros 0 ++ leBytes 8 ((8 * len) % 2 ^ 64)

/-- The four-word MD5 digest of a byte string. -/
def md5Digest (msg : List Nat) : Nat × Nat × Nat × Nat :=
  (chunks64 (md5Pad msg)).foldl md5Block
    (0x67452301, 0xefcdab89, 0x98badcfe, 0x10325476)

/-- Lower-case hex digit. -/
def hexDigit (n : Nat) : Char :=
  if n < 10 then Char.ofNat (48 + n) else Char.ofNat (87 + n)

/-- Two-digit lower-case hex of a byte. -/
def hexByte (b : Nat) : List Char := [hexDigit (b / 16 % 16), hexDigit (b % 16)]

/-- The digest serialisation: each state word emitted as four little-endian
bytes, in hex. -/
def md5HexL (msg : List Nat) : List Char :=
  let (a, b, c, d) := md5Digest msg
  (leBytes 4 a ++ leBytes 4 b ++ leBytes 4 c ++ leBytes 4 d).foldr
    (fun byte acc => hexByte byte ++ acc) []

/-- UTF-8 encoding of one code point (`str.encode()`). -/
def utf8Encode (c : Char) : List Nat :=
  let n := c.toNat
  if n < 0x80 then [n]
  else if n < 0x800 then
    [0xc0 + n / 64, 0x80 + n % 64]
  else if n < 0x10000 then
    [0xe0 + n / 4096, 0x80 + n / 64 % 64, 0x80 + n % 64]
  else
    [0xf0 + n / 262144, 0x80 + n / 4096 % 64, 0x80 + n / 64 % 64, 0x80 + n % 64]

/-- Python `s.encode()`: UTF-8 bytes of a string. -/
def utf8Bytes (s : String) : List Nat :=
  s.data.foldr (fun c acc => utf8Encode c ++ acc) []

/-- Python `hashlib.md5(url.encode()).hexdigest()[:16]`. -/
def md5Hex16 (url : String) : String := ⟨(md5HexL (utf8Bytes url)).take 16⟩

/-- Python `get_safe_filename(url, alt_text)` from the source:
extension from the URL path when in the allow-list (else `.jpg`), base from
the slugged alt text, or the first 16 hex digest characters of the URL when
the alt text is empty. -/
def get_safe_filename (url : String) (alt_text : String) : String :=
  let ext := chooseExt url
  let base := if alt_text ≠ "" then slug50 alt_text else md5Hex16 url
  base ++ ext

/-! ## `natural_sort_key`

`re.split('([0-9]+)', basename)` yields the alternating non-digit/digit
chunks (with empty boundary chunks), and `convert` maps each chunk through
`int(text) if text.isdigit() else text.lower()`.  CPython's `str.isdigit`
accepts every character with Unicode `Numeric_Type` of `Digit` or
`Decimal`, while `int()` only parses decimal-digit (`Nd`) characters, so a
chunk such as `"²"` (superscript two, `Numeric_Type=Digit` but category
`No`) passes `isdigit` and then makes `int` raise `ValueError`.  The model
represents that divergence: `pyDigitLike` covers the ASCII digits plus the
superscript digits `¹²³`, and `pyIntParse` only accepts ASCII digits
(non-ASCII `Nd` digits, which `int` would accept, do not occur in any input
considered here).  A raised exception is modelled as `none`. -/

/-- The regex class `[0-9]`. -/
def isAsciiDigit (c : Char) : Bool := '0' ≤ c ∧ c ≤ '9'

/-- Characters CPython's `str.isdigit` classifies as digits (model: ASCII
digits and the Latin-1 superscript digits). -/
def pyDigitLike (c : Char) : Bool :=
  isAsciiDigit c ∨ c = '¹' ∨ c = '²' ∨ c = '³'

/-- Python `text.isdigit()`: non-empty and all characters digit-like. -/
def pyIsDigitStr (l : List Char) : Bool := !l.isEmpty && l.all pyDigitLike

/-- Decimal value of an ASCII digit string. -/
def digitsValL (l : List Char) : Nat :=
  l.foldl (fun acc c => 10 * acc + (c.toNat - 48)) 0

/-- Python `int(text)` (model: succeeds exactly on non-empty ASCII digit strings). -/
def pyIntParse (l : List Char) : Option Nat :=
  if l ≠ [] ∧ l.all isAsciiDigit then some (digitsValL l) else none

/-- Scanner for `re.split('([0-9]+)', l)`: `digitMode` tells whether the
reversed accumulator `acc` is a digit run. -/
def splitDigitsAux : List Char → Bool → List Char → List (List Char)
  | [], true, acc => [acc.reverse, []]
  | [], false, acc => [acc.reverse]
  | c :: r, true, acc =>
    if isAsciiDigit c then splitDigitsAux r true (c :: acc)
    else acc.reverse :: splitDigitsAux r false [c]
  | c :: r, false, acc =>
    if isAsciiDigit c then acc.reverse :: splitDigitsAux r true [c]
    else splitDigitsAux r false (c :: acc)

/-- Python `re.split('([0-9]+)', l)`. -/
def reSplitDigits (l : List Char) : List (List Char) := splitDigitsAux l false []

/-- A comparison-key element: lowered text or an integer. -/
inductive SortElem where
  | s (v : String)
  | n (v : Nat)
deriving DecidableEq, Repr

/-- Python `convert(text)` from `natural_sort_key`; `none` models the `ValueError`
raised when `text.isdigit()` holds but `int(text)` cannot parse it. -/
def pyConvert (chunk : List Char) : Option SortElem :=
  if pyIsDigitStr chunk then (pyIntParse chunk).map SortElem.n
  else some (.s ⟨pyLowerL chunk⟩)

/-- An `Option`-valued `mapM` on lists, written out for easy reasoning. -/
def optMapM (f : α → Option β) : List α → Option (List β)
  | [] => some []
  | a :: l =>
    match f a, optMapM f l with
    | some b, some r => some (b :: r)
    | _, _ => none

/-- Python `natural_sort_key(filename)`; `none` models a raised exception. -/
def natural_sort_key (filename : String) : Option (List SortElem) :=
  optMapM pyConvert (reSplitDigits (baseNameL filename.data))

/-- CPython string comparison: lexicographic on code points. -/
def strLtL : List Char → List Char → Bool
  | [], [] => false
  | [], _ :: _ => true
  | _ :: _, [] => false
  | a :: as, b :: bs =>
    decide (a.toNat < b.toNat) || (a = b && strLtL as bs)

/-- CPython `str` comparison on `String`. -/
def strLt (a b : String) : Bool := strLtL a.data b.data

/-- CPython comparison of two key elements (same-type only; on mixed types
CPython raises `TypeError`, which never occurs in the comparisons below and
is modelled as `false`). -/
def sortElemLt : SortElem → SortElem → Bool
  | .s a, .s b => strLt a b
  | .n a, .n b => a < b
  | _, _ => false

/-- CPython lexicographic list comparison of keys. -/
def keyLt : List SortElem → List SortElem → Bool
  | [], [] => false
  | [], _ :: _ => true
  | _ :: _, [] => false
  | a :: as, b :: bs => sortElemLt a b || (a = b && keyLt as bs)

/-- Lower-cased basename of a filename, the content of a digit-free key. -/
def lowerBasename (s : String) : String := ⟨pyLowerL (baseNameL s.data)⟩

/-! ## `extract_title_from_html`

The parsed document is modelled by the two values the function reads from
the soup: `soup.title.string` (absent when there is no title element or its
`.string` is `None`) and the first `h1`'s `get_text()` (absent when there
is no `h1`).  A `none` document models the `except` branch: an exception
while opening, reading or parsing the file.

The boilerplate pattern `re.sub(r'\s*[-|]\s*(LibreTexts|Botany).*$', '', t)`
is modelled exactly, including `re` fine print: `.` does not match a
newline and `$` matches at the end of the string or just before a trailing
newline, so the leftmost position where the pattern matches must be
followed (after optional whitespace, a dash or pipe, more optional
whitespace and a brand word) by a newline-free tail, possibly ending in one
final newline that stays in the output. -/

/-- The parsed-document data `extract_title_from_html` consumes. -/
structure HtmlTitleDoc where
  titleString : Option String
  h1Text : Option String
deriving DecidableEq, Repr

/-- No newline in the list (`.*` compatibility). -/
def noNewline (l : List Char) : Bool := l.all (fun c => c ≠ '\n')

/-- Does `.*$` match the whole of `l`? -/
def dotStarDollar (l : List Char) : Bool :=
  noNewline l || (noNewline l.dropLast && l.getLast? = some '\n')

/-- Does `(LibreTexts|Botany).*$` match the whole of `l`? -/
def brandTail (l : List Char) : Bool :=
  (listLeads "LibreTexts".data l && dotStarDollar (l.drop 10)) ||
  (listLeads "Botany".data l && dotStarDollar (l.drop 6))

/-- Does `\s*(LibreTexts|Botany).*$` match the whole of `l`? -/
def matchAfterDash : List Char → Bool
  | [] => brandTail []
  | c :: r => brandTail (c :: r) || (pySpace c && matchAfterDash r)

/-- Does `\s*[-|]\s*(LibreTexts|Botany).*$` match the whole of `l`? -/
def matchesAt : List Char → Bool
  | [] => false
  | c :: r => ((c = '-' || c = '|') && matchAfterDash r) || (pySpace c && matchesAt r)

/-- Leftmost index at which the boilerplate pattern matches. -/
def firstMatchIdx : List Char → Option Nat
  | [] => none
  | c :: r => if matchesAt (c :: r) then some 0 else (firstMatchIdx r).map (· + 1)

/-- Python `re.sub(r'\s*[-|]\s*(LibreTexts|Botany).*$', '', l)`: delete from the
leftmost match on; when the string ends in a newline the match stops just
before it and that newline survives. -/
def reSubBrand (l : List Char) : List Char :=
  match firstMatchIdx l with
  | none => l
  | some i => l.take i ++ (if l.getLast? = some '\n' then ['\n'] else [])

/-- Strip the brand boilerplate suffix from a title string. -/
def stripBrand (s : String) : String := ⟨reSubBrand s.data⟩

/-- Python `os.path.splitext(os.path.basename(filepath))[0]`. -/
def fileStem (filepath : String) : List Char := splitExtRootL (baseNameL filepath.data)

/-- Python `.replace('-', ' ').replace('_', ' ')`. -/
def sepToSpace (l : List Char) : List Char :=
  pyReplaceCharL '_' ' ' (pyReplaceCharL '-' ' ' l)

/-- The filename-derived title of the normal fallback: separators to
spaces, then each word capitalized and re-joined. -/
def fileTitleCap (filepath : String) : String :=
  ⟨joinSpaceL ((pySplitWsL (sepToSpace (fileStem filepath))).map pyCapitalizeL)⟩

/-- The filename-derived string of the `except` branch: separators to
spaces only (no capitalization, no strip). -/
def fileTitleRaw (filepath : String) : String := ⟨sepToSpace (fileStem filepath)⟩

/-- The title-element branch: a truthy `soup.title.string`, stripped and
with the brand suffix removed, is used when the outcome is non-empty. -/
def titleFromTitleTag (d : HtmlTitleDoc) : Option String :=
  match d.titleString with
  | some s =>
    if s ≠ "" then
      let t := stripBrand (pyStrip s)
      if t ≠ "" then some t else none
    else none
  | none => none

/-- Python `extract_title_from_html(filepath)` over the document model. -/
def extract_title_from_html (filepath : String) (doc : Option HtmlTitleDoc) : String :=
  match doc with
  | none => fileTitleRaw filepath
  | some d =>
    match titleFromTitleTag d with
    | some t => t
    | none =>
      match d.h1Text with
      | some h => if h ≠ "" then pyStrip h else fileTitleCap filepath
      | none => fileTitleCap filepath

/-! ## `clean_html_content`

The parsed fragment is a rose tree of element and text nodes; an element
carries its tag and its (multi-valued) `class` attribute.  One
`find_all(...)`/`decompose()` pass removes, among the descendants of the
root (BeautifulSoup's `find_all` does not match the root itself), every
subtree whose top node satisfies the predicate. -/

mutual
/-- An HTML node: element (tag, classes, children) or text. -/
inductive HNode where
  | elem (tag : String) (classes : List String) (children : HForest)
  | text (s : String)
/-- A list of sibling HTML nodes. -/
inductive HForest where
  | nil
  | cons (head : HNode) (tail : HForest)
end

/-- Tag and classes of an element node. -/
def nodeTag : HNode → Option (String × List String)
  | .elem t c _ => some (t, c)
  | .text _ => none

/-- A predicate on the top-level data of a node (`find_all` filters). -/
def tagPred (f : String → List String → Bool) (n : HNode) : Bool :=
  ((nodeTag n).map (fun tc => f tc.1 tc.2)).getD false

/-- Python `find_all('script')`. -/
def isScriptTag : HNode → Bool := tagPred fun t _ => t = "script"

/-- Python `find_all('footer')`. -/
def isFooterTag : HNode → Bool := tagPred fun t _ => t = "footer"

/-- Python `find_all('style')`. -/
def isStyleTag : HNode → Bool := tagPred fun t _ => t = "style"

/-- The MathJax container tags removed by `clean_html_content`. -/
def mathJaxTags : List String := ["mjx-container", "mjx-assistive-mml", "mjx-speech"]

/-- Python `find_all(['mjx-container', 'mjx-assistive-mml', 'mjx-speech'])`. -/
def isMathJaxTag : HNode → Bool := tagPred fun t _ => t ∈ mathJaxTags

/-- The marker classes of navigation/attribution boilerplate. -/
def navMarkerClasses : List String :=
  ["mt-guide-listings", "mt-topic-hierarchy-listings", "autoattribution",
   "mt-content-footer"]

/-- Python `find_all(['nav', 'div'], class_=[...])`: tag matches and some class is
in the marker set. -/
def isNavMarker : HNode → Bool := tagPred fun t cs =>
  (t = "nav" || t = "div") && cs.any (fun c => c ∈ navMarkerClasses)

mutual
/-- One removal pass: drop every descendant subtree whose top matches `p`
(the root itself is kept, as `find_all` never returns the root). -/
def removeNode (p : HNode → Bool) : HNode → HNode
  | .text s => .text s
  | .elem t c ch => .elem t c (removeForest p ch)
/-- Removal pass over a sibling list. -/
def removeForest (p : HNode → Bool) : HForest → HForest
  | .nil => .nil
  | .cons n r =>
    if p n then removeForest p r else .cons (removeNode p n) (removeForest p r)
end

/-- Python `clean_html_content(soup)`: the five removal passes in source order:
scripts, footers, styles, MathJax containers, nav/attribution markers. -/
def clean_html_content (soup : HNode) : HNode :=
  removeNode isNavMarker
    (removeNode isMathJaxTag
      (removeNode isStyleTag
        (removeNode isFooterTag
          (removeNode isScriptTag soup))))

/-- The union of the five removal predicates, associated in pass order. -/
def cleanPred (n : HNode) : Bool :=
  (((isScriptTag n || isFooterTag n) || isStyleTag n) || isMathJaxTag n)
    || isNavMarker n

/-! ## `extract_image_urls`, `download_image` and the per-chapter image loop

A chapter's `<img>` elements are modelled as a list in document order
(`soup.find_all('img')`); an element has an optional `src` attribute and an
`alt` attribute (`img.get('alt', '')` makes a missing `alt` the empty
string, so `alt` is plain `String`).  The mutable `tag` reference held by
each extracted image record is modelled by the element's index.  The
network is an oracle from URL to either content bytes or the exception
text; `urlopen` raising (network error, timeout, or `HTTPError` for a
non-2xx status) is the `error` case. -/

/-- An `<img>` element. -/
structure ImgTag where
  src : Option String
  alt : String
deriving DecidableEq, Repr

/-- The fixed upstream origin used for root-relative URLs. -/
def upstreamOrigin : String := "https://bio.libretexts.org"

/-- URL normalization of `extract_image_urls`. -/
def normalizeSrc (src : String) : String :=
  if leadsWith "http" src then src
  else if leadsWith "//" src then "https:" ++ src
  else if leadsWith "/" src then upstreamOrigin ++ src
  else src

/-- Python `extract_image_urls(soup)`: the records `(element index, normalized
URL, alt text)` of the images with a non-empty `src`. -/
def extract_image_urls (imgs : List ImgTag) : List (Nat × String × String) :=
  imgs.enum.filterMap fun p =>
    match p.2.src with
    | some s => if s ≠ "" then some (p.1, normalizeSrc s, p.2.alt) else none
    | none => none

/-- The statistics dictionary. -/
structure Stats where
  chapters : Nat
  images_found : Nat
  images_downloaded : Nat
  images_failed : Nat
  errors : List String
deriving DecidableEq, Repr

/-- The initial statistics. -/
def initStats : Stats := ⟨0, 0, 0, 0, []⟩

/-- The images directory: filename to content bytes, insertion-ordered. -/
abbrev ImageStore := List (String × List Nat)

/-- Writing a file: overwrite the entry when the name exists, else append. -/
def insertOver (store : ImageStore) (key : String) (v : List Nat) : ImageStore :=
  if store.any (fun kv => kv.1 = key) then
    store.map (fun kv => if kv.1 = key then (key, v) else kv)
  else store ++ [(key, v)]

/-- Python `os.listdir(IMAGES_DIR)` (names only). -/
def storeKeys (store : ImageStore) : List String := store.map (·.1)

/-- The network oracle. -/
abbrev Network := String → Except String (List Nat)

/-- Does fetching `url` succeed under the oracle? -/
def netOk (net : Network) (url : String) : Bool :=
  match net url with
  | .ok _ => true
  | .error _ => false

/-- The error message recorded for a failing fetch of `url`. -/
def downloadErrMsg (net : Network) (url : String) : String :=
  match net url with
  | .ok _ => ""
  | .error e => "Failed to download " ++ url ++ ": " ++ e

/-- Python `download_image(url, filename)`: on success write the bytes and return
`True`; on any exception append the error message to `stats['errors']` and
return `False`. -/
def download_image (net : Network) (url fname : String) (st : Stats)
    (store : ImageStore) : Bool × Stats × ImageStore :=
  match net url with
  | .ok content => (true, st, insertOver store fname content)
  | .error e =>
    (false,
     { st with errors := st.errors ++ ["Failed to download " ++ url ++ ": " ++ e] },
     store)

/-- State carried through the per-chapter image loop. -/
structure ImgLoopState where
  tags : List ImgTag
  st : Stats
  store : ImageStore
deriving DecidableEq, Repr

/-- Set the `src` attribute of the element at index `i`. -/
def setSrc : List ImgTag → Nat → String → List ImgTag
  | [], _, _ => []
  | t :: r, 0, v => { t with src := some v } :: r
  | t :: r, i + 1, v => t :: setSrc r i v

/-- One iteration of the image loop: derive the safe filename, attempt the
download, and on success rewrite the element's `src` and count a download,
else count a failure. -/
def imageStep (net : Network) (acc : ImgLoopState) (ref : Nat × String × String) :
    ImgLoopState :=
  let fname := get_safe_filename ref.2.1 ref.2.2
  let r := download_image net ref.2.1 fname acc.st acc.store
  if r.1 then
    { tags := setSrc acc.tags ref.1 ("images/" ++ fname),
      st := { r.2.1 with images_downloaded := r.2.1.images_downloaded + 1 },
      store := r.2.2 }
  else
    { tags := acc.tags,
      st := { r.2.1 with images_failed := r.2.1.images_failed + 1 },
      store := r.2.2 }

/-- The full image loop of one chapter. -/
def imageLoop (net : Network) (refs : List (Nat × String × String))
    (s : ImgLoopState) : ImgLoopState :=
  refs.foldl (imageStep net) s

/-- Per-chapter image processing: enumerate the references, add their count
to `images_found`, then run the loop. -/
def processChapterImages (net : Network) (imgs : List ImgTag) (st : Stats)
    (store : ImageStore) : ImgLoopState :=
  let refs := extract_image_urls imgs
  imageLoop net refs
    { tags := imgs,
      st := { st with images_found := st.images_found + refs.length },
      store := store }

/-! ## The `main` orchestration loop -/

/-- One input chapter as `main` sees it: the file may be missing (the loop
`continue`s), reading it may raise (the `except` branch records an error),
or it parses into a list of image elements. -/
inductive ChapterSrc where
  | missing (name title : String)
  | readError (name title msg : String)
  | ok (name title : String) (imgs : List ImgTag)

/-- The pipeline state across chapters. -/
structure RunState where
  st : Stats
  store : ImageStore
  chaptersInfo : List (String × String)
  chaptersContent : List (String × List ImgTag)

/-- Processing of one chapter inside `main`'s loop. -/
def processChapter (net : Network) (single : Bool) (rs : RunState)
    (c : ChapterSrc) : RunState :=
  match c with
  | .missing _ _ => rs
  | .readError name _ msg =>
    { rs with
      st := { rs.st with
              errors := rs.st.errors ++ ["Error processing " ++ name ++ ": " ++ msg] } }
  | .ok name title imgs =>
    let r := processChapterImages net imgs rs.st rs.store
    { st := { r.st with chapters := r.st.chapters + 1 },
      store := r.store,
      chaptersInfo := rs.chaptersInfo ++ [(name, title)],
      chaptersContent :=
        if single then rs.chaptersContent ++ [(title, r.tags)] else rs.chaptersContent }

/-- Python `main`'s chapter loop from the initial state. -/
def mainRun (net : Network) (single : Bool) (chapters : List ChapterSrc) : RunState :=
  chapters.foldl (processChapter net single) ⟨initStats, [], [], []⟩

/-! ## `create_content_opf`, `create_toc_ncx`, `create_single_page_xhtml`

The generated XML is modelled structurally: a manifest item is its
`(id, href, media-type)` attribute triple, a spine entry its `idref`, a
navPoint its `(label, content src)` pair, and the combined single-page
document the list of its section anchor ids. -/

/-- Decimal digit character. -/
def decDigitChar (r : Nat) : Char := Char.ofNat (48 + r)

/-- Decimal digits of `n`, most significant first (`fuel`-bounded; the fuel
`n + 1` always suffices). -/
def natDigitsAux : Nat → Nat → List Char
  | 0, _ => []
  | fuel + 1, n =>
    if n < 10 then [decDigitChar n]
    else natDigitsAux fuel (n / 10) ++ [decDigitChar (n % 10)]

/-- Decimal digits of `n`. -/
def natDigits (n : Nat) : List Char := natDigitsAux (n + 1) n

/-- Python `str(n)` for a natural number. -/
def natRepr (n : Nat) : String := ⟨natDigits n⟩

/-- A manifest `<item>`. -/
structure ManifestItem where
  id : String
  href : String
  mediaType : String
deriving DecidableEq, Repr

/-- The manifest id `chapter{k}`. -/
def chapterId (k : Nat) : String := "chapter" ++ natRepr k

/-- The manifest id `img{k}`. -/
def imgId (k : Nat) : String := "img" ++ natRepr k

/-- Media type inferred from a filename's extension (the dictionary lookup
with default `image/jpeg`). -/
def mediaTypeFor (fname : String) : String :=
  let ext := pyLower (splitExtExt fname)
  if ext = ".jpg" then "image/jpeg"
  else if ext = ".jpeg" then "image/jpeg"
  else if ext = ".png" then "image/png"
  else if ext = ".gif" then "image/gif"
  else if ext = ".svg" then "image/svg+xml"
  else "image/jpeg"

/-- The manifest of `create_content_opf`: the fixed `ncx` and `css` items,
then one content item per chapter (or a single combined item), then one
item per image file. -/
def manifestItems (chapters : List (String × String)) (images : List String)
    (single : Bool) : List ManifestItem :=
  [⟨"ncx", "toc.ncx", "application/x-dtbncx+xml"⟩,
   ⟨"css", "styles.css", "text/css"⟩]
  ++ (if single then [⟨"content", "content.xhtml", "application/xhtml+xml"⟩]
      else (List.range chapters.length).map fun i =>
        ⟨chapterId (i + 1), chapterId (i + 1) ++ ".xhtml", "application/xhtml+xml"⟩)
  ++ images.enum.map fun p =>
      ⟨imgId (p.1 + 1), "images/" ++ p.2, mediaTypeFor p.2⟩

/-- The spine `idref` list of `create_content_opf`. -/
def spineIdrefs (chapters : List (String × String)) (single : Bool) : List String :=
  if single then ["content"]
  else (List.range chapters.length).map fun i => chapterId (i + 1)

/-- The anchor id derived from a title:
`title.lower().replace(' ', '-').replace('.', '-')`. -/
def sectionAnchor (title : String) : String :=
  ⟨pyReplaceCharL '.' '-' (pyReplaceCharL ' ' '-' (pyLowerL title.data))⟩

/-- A `<navPoint>` of `create_toc_ncx`: label and `content src`. -/
structure NavPoint where
  label : String
  target : String
deriving DecidableEq, Repr

/-- The navMap of `create_toc_ncx`. -/
def navPoints (chapters : List (String × String)) (single : Bool) : List NavPoint :=
  if single then
    chapters.map fun c => ⟨c.2, "content.xhtml#" ++ sectionAnchor c.2⟩
  else
    chapters.enum.map fun p => ⟨p.2.2, chapterId (p.1 + 1) ++ ".xhtml"⟩

/-- The section anchor ids of the combined document built by
`create_single_page_xhtml` from `chapters_content`. -/
def singlePageSectionIds (chaptersContent : List (String × List ImgTag)) :
    List String :=
  chaptersContent.map fun c => sectionAnchor c.1

/-- The manifest produced by a full `main` run (`downloaded_images` is the
listing of the images directory). -/
def runManifest (net : Network) (single : Bool) (chapters : List ChapterSrc) :
    List ManifestItem :=
  let rs := mainRun net single chapters
  manifestItems rs.chaptersInfo (storeKeys rs.store) single

/-! ## `package_epub` -/

/-- ZIP entry compression method. -/
inductive Compression where
  | stored
  | deflated
deriving DecidableEq, Repr

/-- One member of the produced archive, in writing order. -/
structure ZipEntry where
  arcname : String
  compression : Compression
deriving DecidableEq, Repr

/-- The fixed output path of the archive. -/
def EPUB_FILE : String := "botany-chapter1.epub"

/-- The archive written by `package_epub`: `mimetype` first with
`ZIP_STORED`, then `META-INF/container.xml` and the walked `OEBPS` files
with the `ZipFile` default `ZIP_DEFLATED`. -/
def package_epub (oebpsFiles : List String) : List ZipEntry :=
  ⟨"mimetype", .stored⟩ :: ⟨"META-INF/container.xml", .deflated⟩
    :: oebpsFiles.map fun f => ⟨"OEBPS/" ++ f, .deflated⟩

/-- The surrounding file system, path to archive contents. -/
abbrev FileStore := List (String × List ZipEntry)

/-- The effect of `package_epub` on the file system: `os.remove` of any
existing file at `EPUB_FILE`, then creation of the fresh archive
(`zipfile.ZipFile(EPUB_FILE, 'w', ...)`). -/
def writeEpubFile (fs : FileStore) (archive : List ZipEntry) : FileStore :=
  (fs.filter fun kv => kv.1 ≠ EPUB_FILE) ++ [(EPUB_FILE, archive)]

/-- Read a path from the file system. -/
def lookupFile (fs : FileStore) (p : String) : Option (List ZipEntry) :=
  (fs.find? fun kv => kv.1 = p).map (·.2)

/-- Does the URL carry a scheme (`letter (letter|digit|+|-|.)* :`)?  Such
URLs are the absolute ones in the sense of the specification. -/
def hasScheme (s : String) : Bool :=
  let pre := s.data.takeWhile (fun c => c ≠ ':')
  decide (pre.length < s.data.length) && !pre.isEmpty &&
    pre.headI.isAlpha && pre.all schemeChar

/-! # Theorems

First generic helper lemmas about the string/list primitives, then the
claim-specific developments, then one theorem (plus witness or
counterexample where applicable) per claim. -/

/-- MD5 sanity check: RFC 1321 test vector for the empty string. -/
theorem md5_test_empty : md5HexL (utf8Bytes "") =
    "d41d8cd98f00b204e9800998ecf8427e".data := by decide

/-- MD5 sanity check: RFC 1321 test vector for `"abc"`. -/
theorem md5_test_abc : md5HexL (utf8Bytes "abc") =
    "900150983cd24fb0d6963f7d28e17f72".data := by decide

/-! ## Claim C1 -/

/-- C1: the packaging step produces a ZIP archive whose first entry is the
fixed `mimetype` file stored without compression, all later entries use the
(deflate) default, and a pre-existing archive at the fixed output path is
deleted and replaced: the file system afterwards holds exactly the fresh
archive at `EPUB_FILE`, whatever was there before. -/
theorem packaging_mimetype_first_and_replaced (fs : FileStore)
    (oebpsFiles : List String) :
    lookupFile (writeEpubFile fs (package_epub oebpsFiles)) EPUB_FILE
        = some (package_epub oebpsFiles)
    ∧ (package_epub oebpsFiles).head? = some ⟨"mimetype", Compression.stored⟩
    ∧ ((package_epub oebpsFiles).tail.all
        fun e => e.compression == Compression.deflated) = true := by
  refine ⟨?_, rfl, ?_⟩
  · have hnone : (fs.filter fun kv => kv.1 ≠ EPUB_FILE).find?
        (fun kv => kv.1 = EPUB_FILE) = none := by
      rw [List.find?_eq_none]
      intro kv hkv
      have := (List.mem_filter.mp hkv).2
      simpa using this
    simp [lookupFile, writeEpubFile, hnone]
  · rw [List.all_eq_true]
    intro e he
    simp only [package_epub, List.tail_cons] at he
    rcases List.mem_cons.mp he with h | h
    · subst h; rfl
    · obtain ⟨f, _, rfl⟩ := List.mem_map.mp h
      rfl

/-! ## Claim C2 -/

/-- C2 (counterexample): the claim asserts that two distinct URLs with
identical alt text always yield the same filename, but the appended
extension comes from the URL, so two URLs with the same non-empty alt text
and different allow-listed path extensions produce different filenames. -/
theorem safe_filename_collision_cx :
    get_safe_filename "http://example.com/a.png" "Cat Photo" = "cat-photo.png"
    ∧ get_safe_filename "http://example.com/b.gif" "Cat Photo" = "cat-photo.gif"
    ∧ get_safe_filename "http://example.com/a.png" "Cat Photo"
        ≠ get_safe_filename "http://example.com/b.gif" "Cat Photo" := by
  refine ⟨by decide, by decide, by decide⟩

/-- C2 (amended): filename derivation is the pure function of `(URL, alt)`
that appends the URL-derived extension (always one of the allow-list,
defaulting to `.jpg`) to the slugged 50-character alt text, or to the first
16 hex characters of the MD5 of the URL when the alt text is empty; two
distinct URLs with identical non-empty alt text collide exactly when their
derived extensions agree. -/
theorem safe_filename_amended :
    (∀ url alt, alt ≠ "" →
        get_safe_filename url alt = slug50 alt ++ chooseExt url)
    ∧ (∀ url, get_safe_filename url "" = md5Hex16 url ++ chooseExt url)
    ∧ (∀ url, chooseExt url ∈ extAllowList)
    ∧ (∀ u1 u2 alt, alt ≠ "" → chooseExt u1 = chooseExt u2 →
        get_safe_filename u1 alt = get_safe_filename u2 alt) := by
  have hbase : ∀ url alt, alt ≠ "" →
      get_safe_filename url alt = slug50 alt ++ chooseExt url := by
    intro url alt h
    simp [get_safe_filename, h]
  refine ⟨hbase, ?_, ?_, ?_⟩
  · intro url
    simp [get_safe_filename]
  · intro url
    simp only [chooseExt]
    split
    · assumption
    · decide
  · intro u1 u2 alt h he
    rw [hbase u1 alt h, hbase u2 alt h, he]

/-- C2 (witness): the amended collision statement at two concrete distinct
URLs with equal extensions and the same non-empty alt text. -/
theorem safe_filename_amended_witness :
    get_safe_filename "http://example.com/a.png" "Cat Photo"
      = get_safe_filename "http://other.org/z.png" "Cat Photo" :=
  safe_filename_amended.2.2.2 "http://example.com/a.png" "http://other.org/z.png"
    "Cat Photo" (by decide) (by decide)

/-! ## Claim C4 -/

/-- The split partitions its input: the chunks concatenate back to the
pending accumulator followed by the remaining input. -/
theorem splitDigitsAux_flatten : ∀ (l : List Char) (mode : Bool) (acc : List Char),
    (splitDigitsAux l mode acc).flatten = acc.reverse ++ l := by
  intro l
  induction l with
  | nil => intro mode acc; cases mode <;> simp [splitDigitsAux]
  | cons d r ih =>
    intro mode acc
    by_cases hd : isAsciiDigit d <;> cases mode <;>
      simp [splitDigitsAux, hd, ih]

/-- Characters produced into chunks come from the input or the accumulator. -/
theorem splitDigitsAux_mem (l : List Char) (mode : Bool) (acc : List Char) :
    ∀ chunk ∈ splitDigitsAux l mode acc, ∀ c ∈ chunk, c ∈ l ∨ c ∈ acc := by
  intro chunk hchunk c hc
  have hmem : c ∈ (splitDigitsAux l mode acc).flatten :=
    List.mem_flatten.mpr ⟨chunk, hchunk, hc⟩
  rw [splitDigitsAux_flatten] at hmem
  rcases List.mem_append.mp hmem with h | h
  · exact Or.inr (List.mem_reverse.mp h)
  · exact Or.inl h

/-- Characters of the basename come from the path. -/
theorem mem_of_mem_baseNameL {c : Char} {l : List Char} (h : c ∈ baseNameL l) :
    c ∈ l := by
  unfold baseNameL at h
  rw [List.mem_reverse] at h
  have hpre : (l.reverse.takeWhile fun c => c ≠ '/') <+: l.reverse :=
    List.takeWhile_prefix _
  exact List.mem_reverse.mp (hpre.subset h)

/-- Python `convert` succeeds on a chunk whose digit-like characters are all ASCII. -/
theorem pyConvert_isSome (chunk : List Char)
    (h : ∀ c ∈ chunk, pyDigitLike c → isAsciiDigit c) :
    (pyConvert chunk).isSome := by
  by_cases hd : pyIsDigitStr chunk
  · have hd' := hd
    simp only [pyIsDigitStr, Bool.and_eq_true, Bool.not_eq_true',
      List.isEmpty_eq_false, List.all_eq_true] at hd'
    obtain ⟨hne, hall⟩ := hd'
    have hasc : chunk.all isAsciiDigit = true := by
      rw [List.all_eq_true]
      intro c hc
      exact h c hc (hall c hc)
    simp [pyConvert, hd, pyIntParse, hne, hasc]
  · simp [pyConvert, hd]

/-- The traversal `optMapM` succeeds when `f` succeeds on each element. -/
theorem optMapM_isSome {α β : Type} (f : α → Option β) :
    ∀ (l : List α), (∀ a ∈ l, (f a).isSome) → (optMapM f l).isSome := by
  intro l
  induction l with
  | nil => intro _; simp [optMapM]
  | cons a r ih =>
    intro h
    have ha := h a (List.mem_cons_self a r)
    have hr := ih fun x hx => h x (List.mem_cons_of_mem a hx)
    unfold optMapM
    cases hfa : f a with
    | none => rw [hfa] at ha; simp at ha
    | some b =>
      cases hfr : optMapM f r with
      | none => rw [hfr] at hr; simp at hr
      | some bs => simp

/-- A digit-free input produces the single chunk `acc.reverse ++ l`. -/
theorem splitDigitsAux_nodigit : ∀ (l : List Char),
    (∀ c ∈ l, ¬ isAsciiDigit c) →
    ∀ acc, splitDigitsAux l false acc = [acc.reverse ++ l] := by
  intro l
  induction l with
  | nil => intro _ acc; simp [splitDigitsAux]
  | cons d r ih =>
    intro h acc
    have hd : ¬ isAsciiDigit d = true := h d (List.mem_cons_self d r)
    simp only [splitDigitsAux, hd, if_neg, Bool.false_eq_true, if_false]
    rw [ih (fun c hc => h c (List.mem_cons_of_mem d hc)) (d :: acc)]
    simp

/-- C4 (counterexample): the claim says the key is total over arbitrary
filenames, but on the filename `1²` the code raises `ValueError`:
`re.split('([0-9]+)', '1²')` yields the chunk `²`, whose `isdigit()` is
`True` (Unicode `Numeric_Type=Digit`), and `int('²')` then fails because
`int` only accepts decimal-digit characters.  `none` is the model of the
raised exception. -/
theorem natural_sort_key_total_cx : natural_sort_key "1²" = none := by decide

/-- C4 (amended): `natural_sort_key` is a pure function that is total on
every filename whose digit-like characters are ASCII decimal digits (it
raises on chunks such as `²`); keys of `1.1`, `1.2`, `1.10` are ordered
numerically in that order; and on digit-free basenames the key is the
single lower-cased basename chunk, compared lexicographically. -/
theorem natural_sort_key_amended :
    (∀ s : String, (∀ c ∈ s.data, pyDigitLike c → isAsciiDigit c) →
        (natural_sort_key s).isSome)
    ∧ (natural_sort_key "1.1"
          = some [.s "", .n 1, .s ".", .n 1, .s ""]
        ∧ natural_sort_key "1.2"
          = some [.s "", .n 1, .s ".", .n 2, .s ""]
        ∧ natural_sort_key "1.10"
          = some [.s "", .n 1, .s ".", .n 10, .s ""]
        ∧ keyLt [.s "", .n 1, .s ".", .n 1, .s ""]
            [.s "", .n 1, .s ".", .n 2, .s ""] = true
        ∧ keyLt [.s "", .n 1, .s ".", .n 2, .s ""]
            [.s "", .n 1, .s ".", .n 10, .s ""] = true)
    ∧ (∀ s : String, (∀ c ∈ baseNameL s.data, ¬ pyDigitLike c) →
        natural_sort_key s = some [.s (lowerBasename s)])
    ∧ (∀ a b : String, keyLt [.s a] [.s b] = strLt a b) := by
  refine ⟨?_, ⟨by decide, by decide, by decide, by decide, by decide⟩, ?_, ?_⟩
  · intro s h
    unfold natural_sort_key
    apply optMapM_isSome
    intro chunk hchunk
    apply pyConvert_isSome
    intro c hc
    exact h c (mem_of_mem_baseNameL
      ((splitDigitsAux_mem _ false [] chunk hchunk c hc).resolve_right
        (by simp)))
  · intro s h
    unfold natural_sort_key reSplitDigits
    rw [splitDigitsAux_nodigit (baseNameL s.data)
      (fun c hc => fun ha => h c hc (by simp [pyDigitLike, ha]))]
    have hconv : pyConvert (baseNameL s.data) = some (.s (lowerBasename s)) := by
      have hnd : pyIsDigitStr (baseNameL s.data) = false := by
        cases hb : baseNameL s.data with
        | nil => rfl
        | cons c r =>
          have : ¬ pyDigitLike c = true := by
            apply h
            rw [hb]
            exact List.mem_cons_self c r
          simp [pyIsDigitStr, this]
      simp [pyConvert, hnd, lowerBasename]
    simp [optMapM, hconv]
  · intro a b
    simp [keyLt, sortElemLt]

/-- C4 (witness): the amended totality statement evaluated at a concrete
all-ASCII filename. -/
theorem natural_sort_key_amended_witness :
    (natural_sort_key "Ch1.html").isSome :=
  natural_sort_key_amended.1 "Ch1.html" (by decide)

/-! ## Claim C9 -/

/-- The test `listLeads` is the prefix test. -/
theorem listLeads_iff : ∀ (p l : List Char),
    listLeads p l = true ↔ ∃ r, l = p ++ r := by
  intro p
  induction p with
  | nil => intro l; simp [listLeads]
  | cons a ps ih =>
    intro l
    cases l with
    | nil => simp [listLeads]
    | cons b ss =>
      simp only [listLeads, Bool.and_eq_true, decide_eq_true_eq, ih ss]
      constructor
      · rintro ⟨rfl, r, rfl⟩
        exact ⟨r, rfl⟩
      · rintro ⟨r, he⟩
        injection he with h1 h2
        exact ⟨h1.symm, r, h2⟩

/-- C9: `extract_image_urls` enumerates exactly the image elements with a
non-empty `src` (missing or empty sources are skipped), pairing each with
its element index and alt text; the source is normalized by prefixing
`https:` to protocol-relative URLs, prefixing the fixed upstream origin to
root-relative URLs, and leaving URLs that carry a scheme untouched. -/
theorem extract_image_urls_normalization (imgs : List ImgTag) :
    (∀ i u a, (i, u, a) ∈ extract_image_urls imgs ↔
        ∃ t, imgs[i]? = some t ∧ a = t.alt ∧
          ∃ s, t.src = some s ∧ s ≠ "" ∧ u = normalizeSrc s)
    ∧ (∀ s, leadsWith "//" s = true → normalizeSrc s = "https:" ++ s)
    ∧ (∀ s, leadsWith "/" s = true → leadsWith "//" s = false →
        normalizeSrc s = upstreamOrigin ++ s)
    ∧ (∀ s, hasScheme s = true → normalizeSrc s = s) := by
  refine ⟨?_, ?_, ?_, ?_⟩
  · intro i u a
    unfold extract_image_urls
    rw [List.mem_filterMap]
    constructor
    · rintro ⟨⟨j, t⟩, hmem, hf⟩
      have hj : imgs[j]? = some t := by
        simpa using (List.mk_mem_enum_iff_getElem?).mp hmem
      cases hs : t.src with
      | none => simp [hs] at hf
      | some s =>
        simp only [hs] at hf
        by_cases hse : s = ""
        · simp [hse] at hf
        · simp only [hse, ne_eq, not_false_eq_true, if_pos, if_true] at hf
          rw [Option.some.injEq, Prod.mk.injEq, Prod.mk.injEq] at hf
          obtain ⟨rfl, rfl, rfl⟩ := hf
          exact ⟨t, hj, rfl, s, hs, hse, rfl⟩
    · rintro ⟨t, hj, rfl, s, hs, hse, rfl⟩
      refine ⟨(i, t), List.mk_mem_enum_iff_getElem?.mpr (by simpa using hj), ?_⟩
      simp [hs, hse]
  · intro s h
    obtain ⟨r, hr⟩ := (listLeads_iff _ _).mp h
    have hhttp : leadsWith "http" s = false := by
      unfold leadsWith
      rw [hr]
      simp [listLeads]
    simp [normalizeSrc, hhttp, h]
  · intro s h h2
    obtain ⟨r, hr⟩ := (listLeads_iff _ _).mp h
    have hhttp : leadsWith "http" s = false := by
      unfold leadsWith
      rw [hr]
      simp [listLeads]
    simp [normalizeSrc, hhttp, h2, h]
  · intro s h
    by_cases hhttp : leadsWith "http" s = true
    · simp [normalizeSrc, hhttp]
    · have halpha : ∃ c r, s.data = c :: r ∧ c.isAlpha = true := by
        unfold hasScheme at h
        simp only [Bool.and_eq_true, decide_eq_true_eq] at h
        obtain ⟨⟨⟨_, hne⟩, hhead⟩, _⟩ := h
        cases hd : s.data with
        | nil => rw [hd] at hne; simp [hd, List.takeWhile] at hne
        | cons c r =>
          rw [hd] at hne hhead
          by_cases hc : c = ':'
          · subst hc
            simp [List.takeWhile] at hne
          · refine ⟨c, r, rfl, ?_⟩
            simpa [List.takeWhile, hc] using hhead
      obtain ⟨c, r, hdata, hca⟩ := halpha
      have hslash : c ≠ '/' := by
        intro he
        subst he
        exact absurd hca (by decide)
      have hslash' : ¬ ('/' : Char) = c := fun he => hslash he.symm
      have h1 : leadsWith "//" s = false := by
        unfold leadsWith
        rw [hdata]
        simp [listLeads, hslash']
      have h2 : leadsWith "/" s = false := by
        unfold leadsWith
        rw [hdata]
        simp [listLeads, hslash']
      simp [normalizeSrc, hhttp, h1, h2]

/-- C9 (witness): the protocol-relative case at a concrete source string. -/
theorem extract_image_urls_normalization_witness :
    normalizeSrc "//cdn.example.org/x.png" = "https:" ++ "//cdn.example.org/x.png" :=
  (extract_image_urls_normalization []).2.1 "//cdn.example.org/x.png" (by decide)

/-! ## Claim C8 -/

/-- A removal pass preserves the top-level data of a node. -/
theorem removeNode_nodeTag (p : HNode → Bool) (n : HNode) :
    nodeTag (removeNode p n) = nodeTag n := by
  cases n <;> simp [removeNode, nodeTag]

/-- Predicates on top-level data are unaffected by removal passes. -/
theorem tagPred_removeNode (f : String → List String → Bool)
    (p : HNode → Bool) (n : HNode) :
    tagPred f (removeNode p n) = tagPred f n := by
  unfold tagPred
  rw [removeNode_nodeTag]

mutual
/-- Two removal passes fuse into one pass with the disjunction of the
predicates, provided the second predicate cannot see the first pass. -/
theorem removeNode_fuse (p q : HNode → Bool)
    (hp : ∀ m, p (removeNode q m) = p m) :
    ∀ x : HNode,
      removeNode p (removeNode q x) = removeNode (fun n => q n || p n) x
  | .text s => by simp [removeNode]
  | .elem t c ch => by
    simp only [removeNode]
    rw [removeForest_fuse p q hp ch]
/-- Forest version of `removeNode_fuse`. -/
theorem removeForest_fuse (p q : HNode → Bool)
    (hp : ∀ m, p (removeNode q m) = p m) :
    ∀ l : HForest,
      removeForest p (removeForest q l) = removeForest (fun n => q n || p n) l
  | .nil => by simp [removeForest]
  | .cons n r => by
    by_cases hq : q n = true
    · simp only [removeForest, hq, if_true, Bool.true_or]
      exact removeForest_fuse p q hp r
    · rw [Bool.not_eq_true] at hq
      by_cases hpn : p n = true
      · simp only [removeForest, hq, Bool.false_eq_true, if_false, hpn,
          Bool.or_true, if_true, hp n]
        exact removeForest_fuse p q hp r
      · rw [Bool.not_eq_true] at hpn
        simp only [removeForest, hq, Bool.false_eq_true, if_false, hp n, hpn,
          Bool.or_self]
        rw [removeNode_fuse p q hp n, removeForest_fuse p q hp r]
end

/-- The five passes of `clean_html_content` are one pass with the combined
predicate. -/
theorem clean_html_content_eq (x : HNode) :
    clean_html_content x = removeNode cleanPred x := by
  unfold clean_html_content
  rw [removeNode_fuse isFooterTag isScriptTag
    (fun m => tagPred_removeNode _ _ m)]
  rw [removeNode_fuse isStyleTag _ (fun m => tagPred_removeNode _ _ m)]
  rw [removeNode_fuse isMathJaxTag _ (fun m => tagPred_removeNode _ _ m)]
  rw [removeNode_fuse isNavMarker _ (fun m => tagPred_removeNode _ _ m)]
  congr 1

/-- The combined predicate is unaffected by removal passes. -/
theorem cleanPred_removeNode (q : HNode → Bool) (m : HNode) :
    cleanPred (removeNode q m) = cleanPred m := by
  simp only [cleanPred, isScriptTag, isFooterTag, isStyleTag, isMathJaxTag,
    isNavMarker, tagPred_removeNode]

/-- C8: the content normalizer is idempotent — applying
`clean_html_content` to its own output removes nothing further. -/
theorem clean_html_idempotent (soup : HNode) :
    clean_html_content (clean_html_content soup) = clean_html_content soup := by
  rw [clean_html_content_eq soup, clean_html_content_eq,
    removeNode_fuse cleanPred cleanPred (cleanPred_removeNode cleanPred)]
  congr 1
  funext n
  exact Bool.or_self _

/-! ## Claims C5 and C10: the image loop -/

/-- The update `setSrc` preserves the length of the element list. -/
theorem setSrc_length : ∀ (l : List ImgTag) (i : Nat) (v : String),
    (setSrc l i v).length = l.length := by
  intro l
  induction l with
  | nil => intro i v; rfl
  | cons t r ih =>
    intro i v
    cases i with
    | zero => rfl
    | succ i => simp [setSrc, ih]

/-- Reading the updated index after `setSrc`. -/
theorem setSrc_getElem?_self : ∀ (l : List ImgTag) (i : Nat) (v : String),
    (setSrc l i v)[i]? = (l[i]?).map fun t => { t with src := some v } := by
  intro l
  induction l with
  | nil => intro i v; cases i <;> rfl
  | cons t r ih =>
    intro i v
    cases i with
    | zero => simp [setSrc]
    | succ i => simpa [setSrc] using ih i v

/-- Reading any other index after `setSrc`. -/
theorem setSrc_getElem?_ne : ∀ (l : List ImgTag) (i j : Nat) (v : String),
    i ≠ j → (setSrc l i v)[j]? = l[j]? := by
  intro l
  induction l with
  | nil => intro i j v _; cases i <;> rfl
  | cons t r ih =>
    intro i j v hij
    cases i with
    | zero =>
      cases j with
      | zero => exact absurd rfl hij
      | succ j => simp [setSrc]
    | succ i =>
      cases j with
      | zero => simp [setSrc]
      | succ j => simpa [setSrc] using ih i j v (by omega)

/-- A successful step: rewrite the element, count the download, store the
bytes. -/
theorem imageStep_ok (net : Network) (acc : ImgLoopState)
    (ref : Nat × String × String) (b : List Nat) (h : net ref.2.1 = .ok b) :
    imageStep net acc ref =
      { tags := setSrc acc.tags ref.1
          ("images/" ++ get_safe_filename ref.2.1 ref.2.2),
        st := { acc.st with
                images_downloaded := acc.st.images_downloaded + 1 },
        store := insertOver acc.store (get_safe_filename ref.2.1 ref.2.2) b } := by
  simp [imageStep, download_image, h]

/-- A failing step: leave the element, count the failure, record the
message. -/
theorem imageStep_error (net : Network) (acc : ImgLoopState)
    (ref : Nat × String × String) (e : String) (h : net ref.2.1 = .error e) :
    imageStep net acc ref =
      { tags := acc.tags,
        st := { acc.st with
                images_failed := acc.st.images_failed + 1,
                errors := acc.st.errors ++ [downloadErrMsg net ref.2.1] },
        store := acc.store } := by
  simp [imageStep, download_image, h, downloadErrMsg]

/-- Aggregate effect of the image loop on statistics, error log, tag-list
length and chapter count. -/
theorem imageLoop_stats (net : Network) : ∀ (refs : List (Nat × String × String))
    (acc : ImgLoopState),
    (imageLoop net refs acc).st.images_found = acc.st.images_found
    ∧ (imageLoop net refs acc).st.images_downloaded
        = acc.st.images_downloaded + refs.countP (fun t => netOk net t.2.1)
    ∧ (imageLoop net refs acc).st.images_failed
        = acc.st.images_failed + refs.countP (fun t => !netOk net t.2.1)
    ∧ (imageLoop net refs acc).st.errors
        = acc.st.errors ++ (refs.filter fun t => !netOk net t.2.1).map
            (fun t => downloadErrMsg net t.2.1)
    ∧ (imageLoop net refs acc).tags.length = acc.tags.length
    ∧ (imageLoop net refs acc).st.chapters = acc.st.chapters := by
  intro refs
  induction refs with
  | nil => intro acc; simp [imageLoop]
  | cons ref rest ih =>
    intro acc
    have hfold : imageLoop net (ref :: rest) acc
        = imageLoop net rest (imageStep net acc ref) := rfl
    cases hn : net ref.2.1 with
    | ok b =>
      have hok : netOk net ref.2.1 = true := by simp [netOk, hn]
      obtain ⟨h1, h2, h3, h4, h5, h6⟩ := ih (imageStep net acc ref)
      rw [imageStep_ok net acc ref b hn] at h1 h2 h3 h4 h5 h6
      rw [hfold, imageStep_ok net acc ref b hn]
      refine ⟨by simpa using h1, ?_, ?_, ?_, ?_, by simpa using h6⟩
      · rw [h2, List.countP_cons]
        simp [hok]
        omega
      · rw [h3, List.countP_cons]
        simp [hok]
      · rw [h4, List.filter_cons]
        simp [hok]
      · rw [h5]
        simp [setSrc_length]
    | error e =>
      have hok : netOk net ref.2.1 = false := by simp [netOk, hn]
      obtain ⟨h1, h2, h3, h4, h5, h6⟩ := ih (imageStep net acc ref)
      rw [imageStep_error net acc ref e hn] at h1 h2 h3 h4 h5 h6
      rw [hfold, imageStep_error net acc ref e hn]
      refine ⟨by simpa using h1, ?_, ?_, ?_, by simpa using h5,
        by simpa using h6⟩
      · rw [h2, List.countP_cons]
        simp [hok]
      · rw [h3, List.countP_cons]
        simp [hok]
        omega
      · rw [h4, List.filter_cons]
        simp [hok]

/-- Indices never referenced by the loop keep their element untouched. -/
theorem imageLoop_tags_other (net : Network) :
    ∀ (refs : List (Nat × String × String)) (acc : ImgLoopState) (j : Nat),
    (∀ u a, (j, u, a) ∉ refs) →
    (imageLoop net refs acc).tags[j]? = acc.tags[j]? := by
  intro refs
  induction refs with
  | nil => intro acc j _; rfl
  | cons ref rest ih =>
    intro acc j hj
    obtain ⟨i0, u0, a0⟩ := ref
    have hne : i0 ≠ j := by
      intro he
      subst he
      exact hj u0 a0 (List.mem_cons_self _ _)
    have hrest : ∀ u a, (j, u, a) ∉ rest := fun u a hm =>
      hj u a (List.mem_cons_of_mem _ hm)
    have hfold : imageLoop net ((i0, u0, a0) :: rest) acc
        = imageLoop net rest (imageStep net acc (i0, u0, a0)) := rfl
    rw [hfold, ih _ j hrest]
    cases hn : net u0 with
    | ok b =>
      rw [imageStep_ok net acc (i0, u0, a0) b hn]
      exact setSrc_getElem?_ne _ _ _ _ hne
    | error e =>
      rw [imageStep_error net acc (i0, u0, a0) e hn]

/-- Element rewriting of the loop: the element at a referenced index is
rewritten to the local path exactly when its fetch succeeds, and untouched
when it fails. -/
theorem imageLoop_tags_mem (net : Network) :
    ∀ (refs : List (Nat × String × String)) (acc : ImgLoopState)
      (i : Nat) (u a : String),
    (refs.map (fun t => t.1)).Nodup → (i, u, a) ∈ refs →
    (imageLoop net refs acc).tags[i]? =
      (if netOk net u then
        (acc.tags[i]?).map
          (fun t => { t with src := some ("images/" ++ get_safe_filename u a) })
      else acc.tags[i]?) := by
  intro refs
  induction refs with
  | nil => intro acc i u a _ hm; simp at hm
  | cons ref rest ih =>
    intro acc i u a hnd hm
    obtain ⟨i0, u0, a0⟩ := ref
    have hnd' : (rest.map (fun t => t.1)).Nodup := (List.nodup_cons.mp hnd).2
    have hi0 : i0 ∉ rest.map (fun t => t.1) := (List.nodup_cons.mp hnd).1
    have hfold : imageLoop net ((i0, u0, a0) :: rest) acc
        = imageLoop net rest (imageStep net acc (i0, u0, a0)) := rfl
    rcases List.mem_cons.mp hm with hh | ht
    · injection hh with e1 e2
      injection e2 with e2 e3
      subst e1; subst e2; subst e3
      have hother : ∀ u' a', (i, u', a') ∉ rest := by
        intro u' a' hmem
        exact hi0 (List.mem_map.mpr ⟨(i, u', a'), hmem, rfl⟩)
      rw [hfold, imageLoop_tags_other net rest _ i hother]
      cases hn : net u with
      | ok b =>
        have hok : netOk net u = true := by simp [netOk, hn]
        rw [imageStep_ok net acc (i, u, a) b hn, hok]
        simpa using setSrc_getElem?_self acc.tags i _
      | error e =>
        have hok : netOk net u = false := by simp [netOk, hn]
        rw [imageStep_error net acc (i, u, a) e hn, hok]
        simp
    · have hii : i ≠ i0 := by
        intro he
        subst he
        exact hi0 (List.mem_map.mpr ⟨(i, u, a), ht, rfl⟩)
      have hstep : (imageStep net acc (i0, u0, a0)).tags[i]? = acc.tags[i]? := by
        cases hn : net u0 with
        | ok b =>
          rw [imageStep_ok net acc (i0, u0, a0) b hn]
          exact setSrc_getElem?_ne _ _ _ _ (Ne.symm hii)
        | error e =>
          rw [imageStep_error net acc (i0, u0, a0) e hn]
      rw [hfold, ih _ i u a hnd' ht, hstep]

/-- Mapping a component out of a `filterMap` yields a sublist of the
corresponding map, when the extraction commutes. -/
theorem map_filterMap_sublist {α β γ : Type} (f : α → Option β) (g : β → γ)
    (h : α → γ) (hfg : ∀ a b, f a = some b → g b = h a) :
    ∀ l : List α, ((l.filterMap f).map g).Sublist (l.map h) := by
  intro l
  induction l with
  | nil => simp
  | cons a rest ih =>
    cases hfa : f a with
    | none =>
      simp only [List.filterMap_cons, hfa, List.map_cons]
      exact ih.cons (h a)
    | some b =>
      simp only [List.filterMap_cons, hfa, List.map_cons]
      rw [hfg a b hfa]
      exact ih.cons₂ (h a)

/-- The element indices of the extracted references are distinct. -/
theorem extract_image_urls_idx_nodup (imgs : List ImgTag) :
    ((extract_image_urls imgs).map (fun t => t.1)).Nodup := by
  have hsub : ((extract_image_urls imgs).map (fun t => t.1)).Sublist
      (imgs.enum.map (fun p => p.1)) := by
    apply map_filterMap_sublist
    intro p b hfb
    cases hs : p.2.src with
    | none => simp [hs] at hfb
    | some s =>
      by_cases hse : s = "" <;>
        simp only [hs, hse, ne_eq, not_false_eq_true, if_pos, if_true,
          not_true_eq_false, Bool.false_eq_true, if_false,
          reduceCtorEq] at hfb
      injection hfb with hfb
      rw [← hfb]
  apply hsub.nodup
  have : imgs.enum.map (fun p : Nat × ImgTag => p.1)
      = List.range imgs.length := List.enum_map_fst imgs
  rw [this]
  exact List.nodup_range _

/-- C5: for every extracted image reference, a failing fetch leaves the
element untouched (its source stays at the original URL), appends the
error message and adds exactly one to `images_failed`; a successful fetch
rewrites the source to `images/<derived filename>` and adds exactly one to
`images_downloaded`; the loop always completes, processing every
reference. -/
theorem image_fetch_outcomes (net : Network) (imgs : List ImgTag)
    (st : Stats) (store : ImageStore) :
    (processChapterImages net imgs st store).st.images_downloaded
        = st.images_downloaded
          + (extract_image_urls imgs).countP (fun t => netOk net t.2.1)
    ∧ (processChapterImages net imgs st store).st.images_failed
        = st.images_failed
          + (extract_image_urls imgs).countP (fun t => !netOk net t.2.1)
    ∧ (processChapterImages net imgs st store).st.errors
        = st.errors ++ ((extract_image_urls imgs).filter
            (fun t => !netOk net t.2.1)).map (fun t => downloadErrMsg net t.2.1)
    ∧ (processChapterImages net imgs st store).st.images_found
        = st.images_found + (extract_image_urls imgs).length
    ∧ (processChapterImages net imgs st store).tags.length = imgs.length
    ∧ (∀ i u a, (i, u, a) ∈ extract_image_urls imgs →
        (netOk net u = false →
          (processChapterImages net imgs st store).tags[i]? = imgs[i]?)
        ∧ (netOk net u = true →
          (processChapterImages net imgs st store).tags[i]?
            = (imgs[i]?).map fun t =>
                { t with src := some ("images/" ++ get_safe_filename u a) })) := by
  obtain ⟨h1, h2, h3, h4, h5, _⟩ := imageLoop_stats net (extract_image_urls imgs)
    { tags := imgs,
      st := { st with
              images_found := st.images_found + (extract_image_urls imgs).length },
      store := store }
  refine ⟨by simpa using h2, by simpa using h3, by simpa using h4,
    by simpa using h1, by simpa using h5, ?_⟩
  intro i u a hm
  have htags := imageLoop_tags_mem net (extract_image_urls imgs)
    { tags := imgs,
      st := { st with
              images_found := st.images_found + (extract_image_urls imgs).length },
      store := store } i u a (extract_image_urls_idx_nodup imgs) hm
  constructor
  · intro hfail
    rw [hfail] at htags
    simpa [processChapterImages] using htags
  · intro hok
    rw [hok] at htags
    simpa [processChapterImages] using htags

/-- C5 (witness): a two-image chapter where the first fetch succeeds and
the second fails; the theorem yields the exact statistics and the
rewritten/untouched elements. -/
theorem image_fetch_outcomes_witness :
    (processChapterImages
        (fun u => if u = "https://bio.libretexts.org/ok.png"
          then .ok [1] else .error "timed out")
        [⟨some "/ok.png", "pic"⟩, ⟨some "/bad.png", "x"⟩]
        initStats []).tags[0]?
      = some ⟨some ("images/" ++ get_safe_filename
          "https://bio.libretexts.org/ok.png" "pic"), "pic"⟩ := by
  have h := (image_fetch_outcomes
      (fun u => if u = "https://bio.libretexts.org/ok.png"
        then .ok [1] else .error "timed out")
      [⟨some "/ok.png", "pic"⟩, ⟨some "/bad.png", "x"⟩]
      initStats []).2.2.2.2.2 0 "https://bio.libretexts.org/ok.png" "pic"
      (by decide)
  rw [h.2 (by decide)]
  rfl

/-! ## Claim C10 -/

/-- One chapter step preserves the accounting identity
`images_found = images_downloaded + images_failed`. -/
theorem processChapter_inv (net : Network) (single : Bool) (rs : RunState)
    (c : ChapterSrc)
    (h : rs.st.images_found = rs.st.images_downloaded + rs.st.images_failed) :
    (processChapter net single rs c).st.images_found
      = (processChapter net single rs c).st.images_downloaded
        + (processChapter net single rs c).st.images_failed := by
  cases c with
  | missing name title => simpa [processChapter] using h
  | readError name title msg => simpa [processChapter] using h
  | ok name title imgs =>
    obtain ⟨h1, h2, h3, _, _, _⟩ := imageLoop_stats net (extract_image_urls imgs)
      { tags := imgs,
        st := { rs.st with
                images_found := rs.st.images_found
                  + (extract_image_urls imgs).length },
        store := rs.store }
    have hsplit : (extract_image_urls imgs).countP (fun t => netOk net t.2.1)
        + (extract_image_urls imgs).countP (fun t => !netOk net t.2.1)
        = (extract_image_urls imgs).length := by
      have h := (List.length_eq_countP_add_countP
        (fun t : Nat × String × String => netOk net t.2.1)
        (extract_image_urls imgs)).symm
      simpa using h
    simp only [processChapter, processChapterImages]
    rw [h1, h2, h3]
    simp only
    omega

/-- C10: from the initial all-zero statistics, after any prefix of the
chapter loop (that is, after each chapter's image loop has completed), the
counters satisfy `images_found = images_downloaded + images_failed` — each
enumerated reference increments exactly one of the two, and nothing else
touches the three counters. -/
theorem stats_accounting_invariant (net : Network) (single : Bool)
    (chapters : List ChapterSrc) (k : Nat) :
    (mainRun net single (chapters.take k)).st.images_found
      = (mainRun net single (chapters.take k)).st.images_downloaded
        + (mainRun net single (chapters.take k)).st.images_failed := by
  have hgen : ∀ (cs : List ChapterSrc) (rs : RunState),
      rs.st.images_found = rs.st.images_downloaded + rs.st.images_failed →
      (cs.foldl (processChapter net single) rs).st.images_found
        = (cs.foldl (processChapter net single) rs).st.images_downloaded
          + (cs.foldl (processChapter net single) rs).st.images_failed := by
    intro cs
    induction cs with
    | nil => intro rs h; simpa using h
    | cons c rest ih =>
      intro rs h
      exact ih (processChapter net single rs c)
        (processChapter_inv net single rs c h)
  exact hgen (chapters.take k) ⟨initStats, [], [], []⟩ rfl

/-! ## Claim C6: manifest/spine/navigation consistency -/

/-- Code of a decimal digit character. -/
theorem decDigitChar_toNat {r : Nat} (h : r < 10) :
    (decDigitChar r).toNat = 48 + r := by
  interval_cases r <;> decide

/-- Value of a digit list extended on the right. -/
theorem digitsValL_append (l : List Char) (c : Char) :
    digitsValL (l ++ [c]) = 10 * digitsValL l + (c.toNat - 48) := by
  simp [digitsValL, List.foldl_append]

/-- The decimal rendering evaluates back to its input. -/
theorem natDigitsAux_val : ∀ (fuel n : Nat), n < fuel →
    digitsValL (natDigitsAux fuel n) = n := by
  intro fuel
  induction fuel with
  | zero => intro n h; omega
  | succ fuel ih =>
    intro n h
    by_cases h10 : n < 10
    · simp [natDigitsAux, h10, digitsValL, decDigitChar_toNat h10]
    · have hlt : n / 10 < fuel := by
        have : n / 10 < n := Nat.div_lt_self (by omega) (by omega)
        omega
      have hm : n % 10 < 10 := Nat.mod_lt n (by omega)
      simp only [natDigitsAux, h10, if_false, digitsValL_append, ih _ hlt,
        decDigitChar_toNat hm]
      omega

/-- The rendering `natRepr` is injective. -/
theorem natRepr_inj {a b : Nat} (h : natRepr a = natRepr b) : a = b := by
  have hd : natDigits a = natDigits b := congrArg String.data h
  have ha : digitsValL (natDigits a) = a := natDigitsAux_val (a + 1) a (by omega)
  have hb : digitsValL (natDigits b) = b := natDigitsAux_val (b + 1) b (by omega)
  rw [← ha, ← hb, hd]

/-- The decimal rendering is never empty. -/
theorem natDigits_ne_nil (n : Nat) : natDigits n ≠ [] := by
  show natDigitsAux (n + 1) n ≠ []
  by_cases h : n < 10 <;> simp [natDigitsAux, h]

/-- The id `chapterId` is injective. -/
theorem chapterId_inj {a b : Nat} (h : chapterId a = chapterId b) : a = b := by
  unfold chapterId at h
  have hd := congrArg String.data h
  rw [String.data_append, String.data_append] at hd
  exact natRepr_inj (congrArg String.mk (List.append_cancel_left hd))

/-- The id `imgId` is injective. -/
theorem imgId_inj {a b : Nat} (h : imgId a = imgId b) : a = b := by
  unfold imgId at h
  have hd := congrArg String.data h
  rw [String.data_append, String.data_append] at hd
  exact natRepr_inj (congrArg String.mk (List.append_cancel_left hd))

/-- The id `chapterId` never collides with `imgId` or the fixed ids. -/
theorem chapterId_ne_imgId (i j : Nat) : chapterId i ≠ imgId j := by
  intro h
  have hd := congrArg String.data h
  rw [chapterId, imgId, String.data_append, String.data_append] at hd
  have hc : "chapter".data = ['c', 'h', 'a', 'p', 't', 'e', 'r'] := rfl
  have hi : "img".data = ['i', 'm', 'g'] := rfl
  rw [hc, hi] at hd
  simp at hd

/-- The id `chapterId` differs from `"ncx"`, `"css"` and `"content"`. -/
theorem chapterId_ne_fixed (i : Nat) :
    chapterId i ≠ "ncx" ∧ chapterId i ≠ "css" ∧ chapterId i ≠ "content" := by
  have hc : "chapter".data = ['c', 'h', 'a', 'p', 't', 'e', 'r'] := rfl
  refine ⟨?_, ?_, ?_⟩
  · intro h
    have hd := congrArg String.data h
    have hx : "ncx".data = ['n', 'c', 'x'] := rfl
    rw [chapterId, String.data_append, hc, hx] at hd
    simp at hd
  · intro h
    have hd := congrArg String.data h
    have hx : "css".data = ['c', 's', 's'] := rfl
    rw [chapterId, String.data_append, hc, hx] at hd
    simp at hd
  · intro h
    have hd := congrArg String.data h
    have hx : "content".data = ['c', 'o', 'n', 't', 'e', 'n', 't'] := rfl
    rw [chapterId, String.data_append, hc, hx] at hd
    simp at hd

/-- The id `imgId` differs from `"ncx"`, `"css"` and `"content"`. -/
theorem imgId_ne_fixed (j : Nat) :
    imgId j ≠ "ncx" ∧ imgId j ≠ "css" ∧ imgId j ≠ "content" := by
  have hi : "img".data = ['i', 'm', 'g'] := rfl
  refine ⟨?_, ?_, ?_⟩
  · intro h
    have hd := congrArg String.data h
    have hx : "ncx".data = ['n', 'c', 'x'] := rfl
    rw [imgId, String.data_append, hi, hx] at hd
    simp at hd
  · intro h
    have hd := congrArg String.data h
    have hx : "css".data = ['c', 's', 's'] := rfl
    rw [imgId, String.data_append, hi, hx] at hd
    simp at hd
  · intro h
    have hd := congrArg String.data h
    have hx : "content".data = ['c', 'o', 'n', 't', 'e', 'n', 't'] := rfl
    rw [imgId, String.data_append, hi, hx] at hd
    simp at hd

/-- Mapping a function of the index over `enum` is mapping it over the
index range. -/
theorem enum_map_fst_comp {α γ : Type} (l : List α) (f : Nat → γ) :
    l.enum.map (fun p => f p.1) = (List.range l.length).map f := by
  conv_rhs => rw [← List.enum_map_fst l]
  rw [List.map_map]
  rfl

/-- The manifest id column, in generation order. -/
theorem manifestItems_map_id (chapters : List (String × String))
    (images : List String) (single : Bool) :
    (manifestItems chapters images single).map (·.id)
      = "ncx" :: "css" ::
        ((if single then ["content"]
          else (List.range chapters.length).map fun i => chapterId (i + 1))
         ++ (List.range images.length).map fun i => imgId (i + 1)) := by
  cases single <;>
    simp [manifestItems, List.map_append, List.map_map, Function.comp_def,
      enum_map_fst_comp images (fun i => imgId (i + 1))]

/-- The `fun i => chapterId (i + 1)` numbering is injective. -/
theorem chapterId_succ_inj : Function.Injective fun i => chapterId (i + 1) := by
  intro x y hxy
  have := chapterId_inj hxy
  omega

/-- The `fun i => imgId (i + 1)` numbering is injective. -/
theorem imgId_succ_inj : Function.Injective fun i => imgId (i + 1) := by
  intro x y hxy
  have := imgId_inj hxy
  omega

/-- The manifest ids are pairwise distinct. -/
theorem manifestItems_ids_nodup (chapters : List (String × String))
    (images : List String) (single : Bool) :
    ((manifestItems chapters images single).map (·.id)).Nodup := by
  rw [manifestItems_map_id]
  have himg : ((List.range images.length).map fun i => imgId (i + 1)).Nodup :=
    (List.nodup_range _).map imgId_succ_inj
  have hmid : ((if single then ["content"]
      else (List.range chapters.length).map fun i => chapterId (i + 1))).Nodup := by
    cases single with
    | true => simp
    | false => exact (List.nodup_range _).map chapterId_succ_inj
  have hdisj : ∀ x ∈ (if single then ["content"]
      else (List.range chapters.length).map fun i => chapterId (i + 1)),
      x ∉ (List.range images.length).map fun i => imgId (i + 1) := by
    intro x hx hmem
    obtain ⟨j, _, hj⟩ := List.mem_map.mp hmem
    cases single with
    | true =>
      simp only [if_true] at hx
      have : x = "content" := by simpa using hx
      subst this
      exact (imgId_ne_fixed (j + 1)).2.2 hj
    | false =>
      simp only [Bool.false_eq_true, if_false] at hx
      obtain ⟨i, _, hi⟩ := List.mem_map.mp hx
      subst hi
      exact chapterId_ne_imgId (i + 1) (j + 1) hj.symm
  refine List.nodup_cons.mpr ⟨?_, List.nodup_cons.mpr ⟨?_, ?_⟩⟩
  · intro hmem
    rcases List.mem_cons.mp hmem with h | h
    · exact absurd h (by decide)
    rcases List.mem_append.mp h with h | h
    · cases single with
      | true =>
        simp at h
      | false =>
        have h2 : ∃ i, i < chapters.length ∧ chapterId (i + 1) = "ncx" := by
          simpa using h
        obtain ⟨i, -, hi⟩ := h2
        exact (chapterId_ne_fixed (i + 1)).1 hi
    · obtain ⟨j, _, hj⟩ := List.mem_map.mp h
      exact (imgId_ne_fixed (j + 1)).1 hj
  · intro hmem
    rcases List.mem_append.mp hmem with h | h
    · cases single with
      | true =>
        simp at h
      | false =>
        have h2 : ∃ i, i < chapters.length ∧ chapterId (i + 1) = "css" := by
          simpa using h
        obtain ⟨i, -, hi⟩ := h2
        exact (chapterId_ne_fixed (i + 1)).2.1 hi
    · obtain ⟨j, _, hj⟩ := List.mem_map.mp h
      exact (imgId_ne_fixed (j + 1)).2.1 hj
  · exact (List.nodup_append).mpr ⟨hmid, himg, fun x hx => hdisj x hx⟩

/-- In a duplicate-free list, a present element is counted exactly once. -/
theorem countP_eq_one_of_nodup_mem {α : Type} [DecidableEq α] :
    ∀ (l : List α) (a : α), l.Nodup → a ∈ l →
      l.countP (fun x => x = a) = 1 := by
  intro l a
  induction l with
  | nil => intro _ h; simp at h
  | cons b r ih =>
    intro hnd hm
    rw [List.countP_cons]
    rcases List.mem_cons.mp hm with he | hmr
    · subst he
      have har : a ∉ r := (List.nodup_cons.mp hnd).1
      have h0 : r.countP (fun x => x = a) = 0 := by
        rw [List.countP_eq_zero]
        intro x hx
        simp only [decide_eq_true_eq]
        intro hxe
        subst hxe
        exact har hx
      simp [h0]
    · have hba : ¬ (b = a) := by
        intro he
        subst he
        exact (List.nodup_cons.mp hnd).1 hmr
      have h1 := ih (List.nodup_cons.mp hnd).2 hmr
      simp [h1, hba]

/-- Filtering the manifest on an id counts that id in the id column. -/
theorem manifest_filter_id_length (m : List ManifestItem) (idref : String) :
    (m.filter fun it => it.id = idref).length
      = (m.map (·.id)).countP (fun x => x = idref) := by
  rw [← List.countP_eq_length_filter, List.countP_map]
  rfl

/-- In single-page mode the produced content/info title columns of the run
agree (each successful chapter appends its title to both). -/
theorem mainRun_content_titles (net : Network) (chs : List ChapterSrc) :
    (mainRun net true chs).chaptersContent.map (·.1)
      = (mainRun net true chs).chaptersInfo.map (·.2) := by
  have hgen : ∀ (cs : List ChapterSrc) (rs : RunState),
      rs.chaptersContent.map (·.1) = rs.chaptersInfo.map (·.2) →
      (cs.foldl (processChapter net true) rs).chaptersContent.map (·.1)
        = (cs.foldl (processChapter net true) rs).chaptersInfo.map (·.2) := by
    intro cs
    induction cs with
    | nil => intro rs h; simpa using h
    | cons c rest ih =>
      intro rs h
      apply ih
      cases c with
      | missing name title => simpa [processChapter] using h
      | readError name title msg => simpa [processChapter] using h
      | ok name title imgs => simp [processChapter, h]
  exact hgen chs ⟨initStats, [], [], []⟩ rfl

/-- C6: manifest ids are unique and every spine idref matches exactly one
manifest item; the spine lists the chapter ids in ordinal order (a single
combined entry in single-page mode); every multi-page navigation target is
the href of a manifest item, and every single-page navigation target is an
anchor `content.xhtml#<a>` whose id `a` is a section id of the combined
document (whose own manifest entry exists), the combined document being
built from chapter content whose titles agree with the chapter list — an
agreement the pipeline itself guarantees. -/
theorem spine_manifest_consistent (chapters : List (String × String))
    (images : List String) (single : Bool) :
    ((manifestItems chapters images single).map (·.id)).Nodup
    ∧ (∀ idref ∈ spineIdrefs chapters single,
        ((manifestItems chapters images single).filter
          fun it => it.id = idref).length = 1)
    ∧ spineIdrefs chapters single
        = (if single then ["content"]
           else (List.range chapters.length).map fun i => chapterId (i + 1))
    ∧ (∀ np ∈ navPoints chapters false,
        ∃ it ∈ manifestItems chapters images false, it.href = np.target)
    ∧ (∃ it ∈ manifestItems chapters images true, it.href = "content.xhtml")
    ∧ (∀ cc : List (String × List ImgTag),
        cc.map (·.1) = chapters.map (·.2) →
        ∀ np ∈ navPoints chapters true,
          ∃ a ∈ singlePageSectionIds cc,
            np.target = "content.xhtml#" ++ a)
    ∧ (∀ (net : Network) (chs : List ChapterSrc),
        (mainRun net true chs).chaptersContent.map (·.1)
          = (mainRun net true chs).chaptersInfo.map (·.2)) := by
  refine ⟨manifestItems_ids_nodup chapters images single, ?_, ?_, ?_, ?_, ?_,
    mainRun_content_titles⟩
  · intro idref hmem
    rw [manifest_filter_id_length]
    apply countP_eq_one_of_nodup_mem _ _
      (manifestItems_ids_nodup chapters images single)
    rw [manifestItems_map_id]
    cases single with
    | true =>
      have : idref = "content" := by simpa [spineIdrefs] using hmem
      subst this
      simp
    | false =>
      simp only [spineIdrefs, Bool.false_eq_true, if_false] at hmem
      simp only [Bool.false_eq_true, if_false]
      exact List.mem_cons_of_mem _ (List.mem_cons_of_mem _
        (List.mem_append_left _ hmem))
  · cases single <;> simp [spineIdrefs]
  · intro np hnp
    simp only [navPoints, Bool.false_eq_true, if_false] at hnp
    obtain ⟨p, hp, hpe⟩ := List.mem_map.mp hnp
    have hi : p.1 < chapters.length := by
      obtain ⟨i, c⟩ := p
      have := List.mk_mem_enum_iff_getElem?.mp hp
      exact (List.getElem?_eq_some.mp this).1
    refine ⟨⟨chapterId (p.1 + 1), chapterId (p.1 + 1) ++ ".xhtml",
      "application/xhtml+xml"⟩, ?_, ?_⟩
    · simp only [manifestItems, Bool.false_eq_true, if_false]
      refine List.mem_append_left _ (List.mem_cons_of_mem _
        (List.mem_cons_of_mem _ ?_))
      exact List.mem_map.mpr ⟨p.1, List.mem_range.mpr hi, rfl⟩
    · rw [← hpe]
  · exact ⟨⟨"content", "content.xhtml", "application/xhtml+xml"⟩,
      by simp [manifestItems], rfl⟩
  · intro cc hcc np hnp
    simp only [navPoints, if_true] at hnp
    obtain ⟨c, hc, hce⟩ := List.mem_map.mp hnp
    refine ⟨sectionAnchor c.2, ?_, ?_⟩
    · unfold singlePageSectionIds
      have : cc.map (fun x => sectionAnchor x.1)
          = (cc.map (·.1)).map sectionAnchor := by
        rw [List.map_map]
        rfl
      rw [this, hcc, List.map_map]
      exact List.mem_map.mpr ⟨c, hc, rfl⟩
    · rw [← hce]

/-- C6 (witness): the spine idref `chapter1` of a one-chapter multi-page
package matches exactly one manifest item. -/
theorem spine_manifest_consistent_witness :
    ((manifestItems [("a.html", "T")] ["x.png"] false).filter
      fun it => it.id = "chapter1").length = 1 :=
  (spine_manifest_consistent [("a.html", "T")] ["x.png"] false).2.1
    "chapter1" (by decide)

/-! ## Claim C7: image deduplication in the manifest -/

/-- The second components of `enum` are the original list. -/
theorem enum_map_snd {α : Type} (l : List α) : l.enum.map Prod.snd = l := by
  apply List.ext_getElem?
  intro i
  simp

/-- Appending on the left of `String` append is cancellable. -/
theorem string_append_left_cancel {s a b : String} (h : s ++ a = s ++ b) :
    a = b := by
  have hd := congrArg String.data h
  rw [String.data_append, String.data_append] at hd
  exact String.ext (List.append_cancel_left hd)

/-- The fixed and content hrefs never equal an `images/` href. -/
theorem fixed_href_ne_images (fn : String) (k : Nat) :
    "toc.ncx" ≠ "images/" ++ fn ∧ "styles.css" ≠ "images/" ++ fn
    ∧ "content.xhtml" ≠ "images/" ++ fn
    ∧ chapterId k ++ ".xhtml" ≠ "images/" ++ fn := by
  have him : "images/".data = ['i', 'm', 'a', 'g', 'e', 's', '/'] := rfl
  refine ⟨?_, ?_, ?_, ?_⟩
  · intro h
    have hd := congrArg String.data h
    have hx : "toc.ncx".data = ['t', 'o', 'c', '.', 'n', 'c', 'x'] := rfl
    rw [String.data_append, him, hx] at hd
    simp at hd
  · intro h
    have hd := congrArg String.data h
    have hx : "styles.css".data
        = ['s', 't', 'y', 'l', 'e', 's', '.', 'c', 's', 's'] := rfl
    rw [String.data_append, him, hx] at hd
    simp at hd
  · intro h
    have hd := congrArg String.data h
    have hx : "content.xhtml".data
        = ['c', 'o', 'n', 't', 'e', 'n', 't', '.', 'x', 'h', 't', 'm', 'l'] := rfl
    rw [String.data_append, him, hx] at hd
    simp at hd
  · intro h
    have hd := congrArg String.data h
    have hc : "chapter".data = ['c', 'h', 'a', 'p', 't', 'e', 'r'] := rfl
    rw [String.data_append, String.data_append, chapterId,
      String.data_append, hc, him] at hd
    simp at hd

/-- Exactly one manifest item carries a given downloaded image's href, and
it carries the extension-inferred media type. -/
theorem manifest_image_href_unique (chapters : List (String × String))
    (images : List String) (single : Bool) (fn : String)
    (himg : images.Nodup) (hfn : fn ∈ images) :
    ((manifestItems chapters images single).filter
        fun it => it.href = "images/" ++ fn).length = 1
    ∧ ∀ it ∈ manifestItems chapters images single,
        it.href = "images/" ++ fn → it.mediaType = mediaTypeFor fn := by
  constructor
  · unfold manifestItems
    rw [List.filter_append, List.filter_append, List.length_append,
      List.length_append]
    have h1 : ([⟨"ncx", "toc.ncx", "application/x-dtbncx+xml"⟩,
        ⟨"css", "styles.css", "text/css"⟩] : List ManifestItem).filter
          (fun it => it.href = "images/" ++ fn) = [] := by
      rw [List.filter_eq_nil_iff]
      intro it hit
      rcases List.mem_cons.mp hit with h | h
      · subst h
        simpa using (fixed_href_ne_images fn 0).1
      · have h2 : it = ⟨"css", "styles.css", "text/css"⟩ := by simpa using h
        subst h2
        simpa using (fixed_href_ne_images fn 0).2.1
    have h2 : ((if single then
          [⟨"content", "content.xhtml", "application/xhtml+xml"⟩]
        else (List.range chapters.length).map fun i =>
          ⟨chapterId (i + 1), chapterId (i + 1) ++ ".xhtml",
            "application/xhtml+xml"⟩) : List ManifestItem).filter
          (fun it => it.href = "images/" ++ fn) = [] := by
      rw [List.filter_eq_nil_iff]
      intro it hit
      cases single with
      | true =>
        have h3 : it = ⟨"content", "content.xhtml", "application/xhtml+xml"⟩ := by
          simpa using hit
        subst h3
        simpa using (fixed_href_ne_images fn 0).2.2.1
      | false =>
        simp only [Bool.false_eq_true, if_false] at hit
        obtain ⟨i, -, hi⟩ := List.mem_map.mp hit
        subst hi
        simpa using (fixed_href_ne_images fn (i + 1)).2.2.2
    have h3 : ((images.enum.map fun p =>
        (⟨imgId (p.1 + 1), "images/" ++ p.2, mediaTypeFor p.2⟩ : ManifestItem)).filter
          (fun it => it.href = "images/" ++ fn)).length = 1 := by
      rw [← List.countP_eq_length_filter, List.countP_map]
      have hcongr : images.enum.countP
            ((fun it : ManifestItem => decide (it.href = "images/" ++ fn)) ∘
              (fun p : Nat × String =>
                (⟨imgId (p.1 + 1), "images/" ++ p.2, mediaTypeFor p.2⟩ : ManifestItem)))
          = images.enum.countP
              ((fun x => decide (x = fn)) ∘ Prod.snd) := by
        apply List.countP_congr
        intro p _
        simp only [Function.comp_apply, decide_eq_true_eq]
        constructor
        · intro h
          exact string_append_left_cancel h
        · intro h
          rw [h]
      rw [hcongr, ← List.countP_map, enum_map_snd]
      exact countP_eq_one_of_nodup_mem images fn himg hfn
    rw [h1, h2, h3]
    rfl
  · intro it hit hhref
    unfold manifestItems at hit
    rcases List.mem_append.mp hit with hit | hit
    · rcases List.mem_append.mp hit with hit | hit
      · rcases List.mem_cons.mp hit with h | h
        · subst h
          exact absurd hhref (by simpa using (fixed_href_ne_images fn 0).1)
        · have h2 : it = ⟨"css", "styles.css", "text/css"⟩ := by simpa using h
          subst h2
          exact absurd hhref (by simpa using (fixed_href_ne_images fn 0).2.1)
      · cases single with
        | true =>
          have h3 : it = ⟨"content", "content.xhtml",
              "application/xhtml+xml"⟩ := by simpa using hit
          subst h3
          exact absurd hhref (by simpa using (fixed_href_ne_images fn 0).2.2.1)
        | false =>
          simp only [Bool.false_eq_true, if_false] at hit
          obtain ⟨i, -, hi⟩ := List.mem_map.mp hit
          subst hi
          exact absurd hhref
            (by simpa using (fixed_href_ne_images fn (i + 1)).2.2.2)
    · obtain ⟨p, -, hp⟩ := List.mem_map.mp hit
      subst hp
      have : p.2 = fn := string_append_left_cancel hhref
      rw [this]

/-- The write `insertOver` preserves the name column up to possibly appending a new
name. -/
theorem insertOver_keys (store : ImageStore) (k : String) (v : List Nat) :
    storeKeys (insertOver store k v)
      = if store.any (fun kv => kv.1 = k) then storeKeys store
        else storeKeys store ++ [k] := by
  unfold insertOver storeKeys
  by_cases h : store.any (fun kv => kv.1 = k)
  · simp only [h, if_true, List.map_map]
    apply List.map_congr_left
    intro kv _
    by_cases hk : kv.1 = k <;> simp [hk]
  · simp [h]

/-- The write `insertOver` keeps the file names duplicate-free. -/
theorem insertOver_keys_nodup (store : ImageStore) (k : String) (v : List Nat)
    (h : (storeKeys store).Nodup) :
    (storeKeys (insertOver store k v)).Nodup := by
  rw [insertOver_keys]
  by_cases ha : store.any (fun kv => kv.1 = k)
  · simpa [ha] using h
  · simp only [ha, Bool.false_eq_true, if_false]
    rw [List.nodup_append]
    refine ⟨h, List.nodup_singleton k, ?_⟩
    intro x hx
    simp only [List.mem_singleton]
    intro he
    subst he
    obtain ⟨kv, hkv, hk⟩ := List.mem_map.mp hx
    rw [List.any_eq_true] at ha
    exact ha ⟨kv, hkv, by simp [hk]⟩

/-- The image loop keeps the file names duplicate-free. -/
theorem imageLoop_keys_nodup (net : Network) :
    ∀ (refs : List (Nat × String × String)) (acc : ImgLoopState),
    (storeKeys acc.store).Nodup →
    (storeKeys (imageLoop net refs acc).store).Nodup := by
  intro refs
  induction refs with
  | nil => intro acc h; exact h
  | cons ref rest ih =>
    intro acc h
    have hfold : imageLoop net (ref :: rest) acc
        = imageLoop net rest (imageStep net acc ref) := rfl
    rw [hfold]
    apply ih
    cases hn : net ref.2.1 with
    | ok b =>
      rw [imageStep_ok net acc ref b hn]
      exact insertOver_keys_nodup _ _ _ h
    | error e =>
      rw [imageStep_error net acc ref e hn]
      exact h

/-- The whole run keeps the file names duplicate-free. -/
theorem mainRun_keys_nodup (net : Network) (single : Bool)
    (chapters : List ChapterSrc) :
    (storeKeys (mainRun net single chapters).store).Nodup := by
  have hgen : ∀ (cs : List ChapterSrc) (rs : RunState),
      (storeKeys rs.store).Nodup →
      (storeKeys (cs.foldl (processChapter net single) rs).store).Nodup := by
    intro cs
    induction cs with
    | nil => intro rs h; exact h
    | cons c rest ih =>
      intro rs h
      apply ih
      cases c with
      | missing name title => exact h
      | readError name title msg => exact h
      | ok name title imgs =>
        exact imageLoop_keys_nodup net (extract_image_urls imgs) _ h
  exact hgen chapters ⟨initStats, [], [], []⟩ List.nodup_nil

/-- C7: however many image references across however many chapters resolve
to the same local filename, the manifest generated by a run contains
exactly one item for that filename, with the media type inferred from its
extension. -/
theorem image_dedup_manifest (net : Network) (single : Bool)
    (chapters : List ChapterSrc) :
    ∀ fn ∈ storeKeys (mainRun net single chapters).store,
      ((runManifest net single chapters).filter
          fun it => it.href = "images/" ++ fn).length = 1
      ∧ ∀ it ∈ runManifest net single chapters,
          it.href = "images/" ++ fn → it.mediaType = mediaTypeFor fn := by
  intro fn hfn
  exact manifest_image_href_unique _ _ single fn
    (mainRun_keys_nodup net single chapters) hfn

/-- C7 (witness): a run with one chapter whose single image downloads as
`pic.png` produces a manifest with exactly one `images/pic.png` item. -/
theorem image_dedup_manifest_witness :
    ((runManifest (fun _ => .ok [9]) false
        [ChapterSrc.ok "a.html" "T" [⟨some "/ok.png", "pic"⟩]]).filter
      fun it => it.href = "images/" ++ "pic.png").length = 1 :=
  (image_dedup_manifest (fun _ => .ok [9]) false
    [ChapterSrc.ok "a.html" "T" [⟨some "/ok.png", "pic"⟩]]
    "pic.png" (by decide)).1

/-! ## Claim C3: title extraction

The development below establishes, for the amended claim, that every
non-error result is trimmed.  The interesting case is the title-element
branch, where the brand-suffix regex deletion must not expose trailing
whitespace: because `\s*` precedes the dash, a leftmost match can never be
preceded by whitespace. -/

/-- The conversion `Char.ofNat` evaluates back on valid (here: below `0xD800`) inputs. -/
theorem char_toNat_ofNat {n : Nat} (h : n < 55296) :
    (Char.ofNat n).toNat = n := by
  have hv : n.isValidChar := Or.inl h
  simp [Char.ofNat, hv, Char.ofNatAux, Char.toNat, UInt32.toNat,
    BitVec.toNat_ofNatLt]

/-- Whitespace characters have codes at most 32. -/
theorem pySpace_toNat_le {c : Char} (h : pySpace c = true) : c.toNat ≤ 32 := by
  simp only [pySpace, Bool.or_eq_true, decide_eq_true_eq] at h
  rcases h with rfl | rfl | rfl | rfl | rfl | rfl <;> decide

/-- Upper-casing cannot create whitespace. -/
theorem pySpace_toUpper {c : Char} (h : pySpace c = false) :
    pySpace (c.toUpper) = false := by
  by_cases hr : c.toNat ≥ 97 ∧ c.toNat ≤ 122
  · have he : c.toUpper = Char.ofNat (c.toNat - 32) := by
      unfold Char.toUpper
      simp [hr]
    rw [he]
    by_contra habs
    rw [Bool.not_eq_false] at habs
    have hle := pySpace_toNat_le habs
    rw [char_toNat_ofNat (by omega)] at hle
    omega
  · have he : c.toUpper = c := by
      unfold Char.toUpper
      simp [hr]
    rw [he, h]

/-- Lower-casing cannot create whitespace. -/
theorem pySpace_toLower {c : Char} (h : pySpace c = false) :
    pySpace (c.toLower) = false := by
  by_cases hr : c.toNat ≥ 65 ∧ c.toNat ≤ 90
  · have he : c.toLower = Char.ofNat (c.toNat + 32) := by
      unfold Char.toLower
      simp [hr]
    rw [he]
    by_contra habs
    rw [Bool.not_eq_false] at habs
    have hle := pySpace_toNat_le habs
    rw [char_toNat_ofNat (by omega)] at hle
    omega
  · have he : c.toLower = c := by
      unfold Char.toLower
      simp [hr]
    rw [he, h]

/-- The scan `dropWhile` has output heads falsifying the predicate. -/
theorem dropWhile_head?_not {α : Type} (p : α → Bool) :
    ∀ (l : List α) (c : α), (l.dropWhile p).head? = some c → p c = false := by
  intro l
  induction l with
  | nil => intro c h; simp at h
  | cons a r ih =>
    intro c h
    by_cases hp : p a
    · rw [List.dropWhile_cons_of_pos hp] at h
      exact ih c h
    · rw [List.dropWhile_cons_of_neg hp] at h
      injection h with h
      subst h
      simpa using hp

/-- A prefix of a list starting with `c` starts with `c`. -/
theorem IsPrefix_head? {α : Type} {l₁ l₂ : List α} {c : α}
    (hp : l₁.IsPrefix l₂) (h : l₁.head? = some c) : l₂.head? = some c := by
  obtain ⟨t, rfl⟩ := hp
  cases l₁ with
  | nil => simp at h
  | cons a r => simpa using h

/-- A strip keeps a list unchanged when its edges are not whitespace. -/
theorem pyStripL_eq_self {l : List Char}
    (hh : ∀ c, l.head? = some c → pySpace c = false)
    (hl : ∀ c, l.getLast? = some c → pySpace c = false) :
    pyStripL l = l := by
  have h1 : l.dropWhile pySpace = l := by
    cases hd : l with
    | nil => rfl
    | cons a r =>
      have := hh a (by rw [hd]; rfl)
      rw [List.dropWhile_cons_of_neg (by simp [this])]
  unfold pyStripL
  rw [h1]
  have h2 : l.reverse.dropWhile pySpace = l.reverse := by
    cases hr : l.reverse with
    | nil => rfl
    | cons a r =>
      have ha : l.getLast? = some a := by
        rw [← List.head?_reverse, hr]
        rfl
      have := hl a ha
      rw [List.dropWhile_cons_of_neg (by simp [this])]
  rw [h2, List.reverse_reverse]

/-- The head of a stripped list is not whitespace. -/
theorem pyStripL_head? {l : List Char} {c : Char}
    (h : (pyStripL l).head? = some c) : pySpace c = false := by
  have hsfx : (l.dropWhile pySpace).reverse.dropWhile pySpace
      <:+ (l.dropWhile pySpace).reverse := List.dropWhile_suffix pySpace
  have hpre : pyStripL l <+: l.dropWhile pySpace := by
    unfold pyStripL
    have := List.reverse_prefix.mpr hsfx
    simpa using this
  exact dropWhile_head?_not pySpace l c (IsPrefix_head? hpre h)

/-- The last element of a stripped list is not whitespace. -/
theorem pyStripL_getLast? {l : List Char} {c : Char}
    (h : (pyStripL l).getLast? = some c) : pySpace c = false := by
  have hrev : (pyStripL l).reverse = (l.dropWhile pySpace).reverse.dropWhile pySpace := by
    unfold pyStripL
    rw [List.reverse_reverse]
  rw [← List.head?_reverse, hrev] at h
  exact dropWhile_head?_not pySpace _ c h

/-- Stripping is idempotent. -/
theorem pyStripL_idem (l : List Char) : pyStripL (pyStripL l) = pyStripL l :=
  pyStripL_eq_self (fun _ h => pyStripL_head? h) (fun _ h => pyStripL_getLast? h)

/-- A whitespace character before a match extends the match leftward. -/
theorem matchesAt_space_cons {c : Char} {r : List Char}
    (hc : pySpace c = true) (h : matchesAt r = true) :
    matchesAt (c :: r) = true := by
  simp [matchesAt, hc, h]

/-- What `firstMatchIdx` returns: the leftmost matching offset. -/
theorem firstMatchIdx_spec : ∀ (l : List Char) (i : Nat),
    firstMatchIdx l = some i →
    matchesAt (l.drop i) = true ∧ ∀ j, j < i → matchesAt (l.drop j) = false := by
  intro l
  induction l with
  | nil => intro i h; simp [firstMatchIdx] at h
  | cons c r ih =>
    intro i h
    by_cases hm : matchesAt (c :: r) = true
    · rw [firstMatchIdx, if_pos hm] at h
      injection h with h
      subst h
      exact ⟨hm, fun j hj => absurd hj (by omega)⟩
    · rw [firstMatchIdx, if_neg hm] at h
      cases hfr : firstMatchIdx r with
      | none => rw [hfr] at h; simp at h
      | some i' =>
        rw [hfr] at h
        simp only [Option.map] at h
        injection h with h
        subst h
        obtain ⟨h1, h2⟩ := ih i' hfr
        refine ⟨by simpa using h1, ?_⟩
        intro j hj
        cases j with
        | zero => simpa using hm
        | succ j' =>
          have := h2 j' (by omega)
          simpa using this

/-- A match offset denotes a real position. -/
theorem firstMatchIdx_lt {l : List Char} {i : Nat}
    (h : firstMatchIdx l = some i) : i < l.length := by
  have h1 := (firstMatchIdx_spec l i h).1
  by_contra hge
  rw [Nat.not_lt] at hge
  rw [List.drop_eq_nil_of_le hge] at h1
  simp [matchesAt] at h1

/-- The brand-suffix deletion keeps non-whitespace edges. -/
theorem reSubBrand_edges {l : List Char}
    (hh : ∀ c, l.head? = some c → pySpace c = false)
    (hl : ∀ c, l.getLast? = some c → pySpace c = false) :
    (∀ c, (reSubBrand l).head? = some c → pySpace c = false)
    ∧ (∀ c, (reSubBrand l).getLast? = some c → pySpace c = false) := by
  cases hfm : firstMatchIdx l with
  | none =>
    have hr : reSubBrand l = l := by
      unfold reSubBrand
      rw [hfm]
    rw [hr]
    exact ⟨hh, hl⟩
  | some i =>
    have hnl : ¬ l.getLast? = some '\n' := by
      intro he
      have := hl '\n' he
      simp [pySpace] at this
    have hr : reSubBrand l = l.take i := by
      unfold reSubBrand
      rw [hfm]
      dsimp only
      rw [if_neg hnl, List.append_nil]
    rw [hr]
    have hlt : i < l.length := firstMatchIdx_lt hfm
    constructor
    · intro c hc
      apply hh c
      have htake := List.take_prefix i l
      exact IsPrefix_head? htake hc
    · intro c hc
      by_cases hi : i = 0
      · subst hi
        simp at hc
      · have hlen : (l.take i).length = i := List.length_take_of_le (by omega)
        rw [List.getLast?_eq_getElem?, hlen] at hc
        rw [List.getElem?_take_of_lt (by omega)] at hc
        by_contra habs
        rw [Bool.not_eq_false] at habs
        obtain ⟨hmatch, hmin⟩ := firstMatchIdx_spec l i hfm
        obtain ⟨hb, hval⟩ := List.getElem?_eq_some.mp hc
        have hdrop : l.drop (i - 1) = c :: l.drop i := by
          have hd := List.drop_eq_getElem_cons hb
          have hi1 : i - 1 + 1 = i := by omega
          rw [hi1, hval] at hd
          exact hd
        have hmono : matchesAt (l.drop (i - 1)) = true := by
          rw [hdrop]
          exact matchesAt_space_cons habs hmatch
        have hcontra := hmin (i - 1) (by omega)
        rw [hmono] at hcontra
        simp at hcontra

/-- The head of an append with a non-empty left part. -/
theorem head?_append_left {α : Type} {l₁ l₂ : List α} {c : α}
    (h : (l₁ ++ l₂).head? = some c) (hne : l₁ ≠ []) : l₁.head? = some c := by
  cases l₁ with
  | nil => exact absurd rfl hne
  | cons a r => simpa using h

/-- Python `str.split()` produces non-empty, whitespace-free words. -/
theorem splitWsAux_words : ∀ (l acc : List Char),
    (∀ c ∈ acc, pySpace c = false) →
    ∀ w ∈ splitWsAux l acc, w ≠ [] ∧ ∀ c ∈ w, pySpace c = false := by
  intro l
  induction l with
  | nil =>
    intro acc hacc w hw
    by_cases he : acc.isEmpty
    · simp [splitWsAux, he] at hw
    · have hw' : w = acc.reverse := by
        simpa [splitWsAux, he] using hw
      subst hw'
      have hne : acc ≠ [] := fun hnil => he (by simp [hnil])
      refine ⟨by simpa using hne, ?_⟩
      intro c hc
      exact hacc c (List.mem_reverse.mp hc)
  | cons d r ih =>
    intro acc hacc w hw
    by_cases hd : pySpace d
    · by_cases he : acc.isEmpty
      · have hw' : w ∈ splitWsAux r [] := by
          simpa [splitWsAux, hd, he] using hw
        exact ih [] (by simp) w hw'
      · have hw' : w = acc.reverse ∨ w ∈ splitWsAux r [] := by
          simpa [splitWsAux, hd, he] using hw
        rcases hw' with hw' | hw'
        · subst hw'
          have hne : acc ≠ [] := fun hnil => he (by simp [hnil])
          refine ⟨by simpa using hne, ?_⟩
          intro c hc
          exact hacc c (List.mem_reverse.mp hc)
        · exact ih [] (by simp) w hw'
    · have hw' : w ∈ splitWsAux r (d :: acc) := by
        simpa [splitWsAux, hd] using hw
      apply ih (d :: acc) ?_ w hw'
      intro c hc
      rcases List.mem_cons.mp hc with rfl | hc
      · simpa using hd
      · exact hacc c hc

/-- Capitalization keeps words non-empty and whitespace-free. -/
theorem pyCapitalizeL_words {w : List Char} (hne : w ≠ [])
    (hsp : ∀ c ∈ w, pySpace c = false) :
    pyCapitalizeL w ≠ [] ∧ ∀ c ∈ pyCapitalizeL w, pySpace c = false := by
  cases w with
  | nil => exact absurd rfl hne
  | cons a r =>
    refine ⟨by simp [pyCapitalizeL], ?_⟩
    intro c hc
    rcases List.mem_cons.mp hc with rfl | hc
    · exact pySpace_toUpper (hsp a (List.mem_cons_self a r))
    · obtain ⟨b, hb, rfl⟩ := List.mem_map.mp hc
      exact pySpace_toLower (hsp b (List.mem_cons_of_mem a hb))

/-- Joining non-empty whitespace-free words yields non-whitespace edges. -/
theorem joinSpaceL_edges : ∀ ws : List (List Char),
    (∀ w ∈ ws, w ≠ [] ∧ ∀ c ∈ w, pySpace c = false) →
    (∀ c, (joinSpaceL ws).head? = some c → pySpace c = false)
    ∧ (∀ c, (joinSpaceL ws).getLast? = some c → pySpace c = false) := by
  intro ws
  induction ws with
  | nil =>
    intro _
    constructor <;> intro c hc <;> simp [joinSpaceL] at hc
  | cons w ws ih =>
    intro h
    have hw := h w (List.mem_cons_self w ws)
    cases ws with
    | nil =>
      constructor
      · intro c hc
        exact hw.2 c (List.mem_of_mem_head? (by simpa [joinSpaceL] using hc))
      · intro c hc
        have hc' : w.getLast? = some c := by simpa [joinSpaceL] using hc
        rw [← List.head?_reverse] at hc'
        exact hw.2 c (List.mem_reverse.mp (List.mem_of_mem_head? hc'))
    | cons w2 ws2 =>
      have hrest := ih fun x hx => h x (List.mem_cons_of_mem w hx)
      have hjne : joinSpaceL (w2 :: ws2) ≠ [] := by
        have hw2 := h w2 (List.mem_cons_of_mem w (List.mem_cons_self w2 ws2))
        cases ws2 with
        | nil => simpa [joinSpaceL] using hw2.1
        | cons w3 ws3 => simp [joinSpaceL]
      have hjoin : joinSpaceL (w :: w2 :: ws2)
          = w ++ ' ' :: joinSpaceL (w2 :: ws2) := rfl
      constructor
      · intro c hc
        rw [hjoin] at hc
        exact hw.2 c (List.mem_of_mem_head? (head?_append_left hc hw.1))
      · intro c hc
        rw [hjoin, ← List.head?_reverse, List.reverse_append,
          List.reverse_cons] at hc
        rw [List.append_assoc] at hc
        have hrev : (joinSpaceL (w2 :: ws2)).reverse ≠ [] := by
          simpa using hjne
        have hc' := head?_append_left hc hrev
        rw [List.head?_reverse] at hc'
        exact hrest.2 c hc'

set_option maxHeartbeats 1000000 in
/-- The capitalized filename-derived title is trimmed. -/
theorem fileTitleCap_trimmed (filepath : String) :
    pyStrip (fileTitleCap filepath) = fileTitleCap filepath := by
  have hwords : ∀ w ∈ (pySplitWsL (sepToSpace (fileStem filepath))).map
      pyCapitalizeL, w ≠ [] ∧ ∀ c ∈ w, pySpace c = false := by
    intro w hw
    obtain ⟨w0, hw0, rfl⟩ := List.mem_map.mp hw
    have h0 := splitWsAux_words _ [] (by simp) w0 hw0
    exact pyCapitalizeL_words h0.1 h0.2
  have hj := joinSpaceL_edges _ hwords
  exact congrArg String.mk (pyStripL_eq_self hj.1 hj.2)

/-- C3 (counterexample): the claim says any read/parse error falls back to
the filename-derived title and that the result is trimmed in every case;
on a read error for `-cells-.html` the code returns `' cells '` — the
un-capitalized, un-trimmed `except`-branch value. -/
theorem extract_title_fallback_cx :
    extract_title_from_html "-cells-.html" none = " cells "
    ∧ pyStrip " cells " ≠ " cells "
    ∧ fileTitleCap "-cells-.html" = "Cells" := by
  refine ⟨by decide, by decide, by decide⟩

/-- C3 (amended): title extraction uses the title element (stripped, brand
suffix removed) when that is non-empty, else the first `h1`'s text when
that text is truthy — the returned value being its trimmed form, which is
empty for whitespace-only `h1` text — else the capitalized
filename-derived title; it never raises, but on a read/parse error it
returns the filename stem with separators replaced and neither capitalized
nor trimmed; in all non-error cases the result is trimmed. -/
theorem extract_title_amended (filepath : String) (doc : Option HtmlTitleDoc) :
    (∀ d t, doc = some d → titleFromTitleTag d = some t →
        extract_title_from_html filepath doc = t)
    ∧ (∀ d s, doc = some d → d.titleString = some s → s ≠ "" →
        stripBrand (pyStrip s) ≠ "" →
        titleFromTitleTag d = some (stripBrand (pyStrip s)))
    ∧ (∀ d h, doc = some d → titleFromTitleTag d = none → d.h1Text = some h →
        h ≠ "" → extract_title_from_html filepath doc = pyStrip h)
    ∧ (∀ d, doc = some d → titleFromTitleTag d = none →
        (d.h1Text = none ∨ d.h1Text = some "") →
        extract_title_from_html filepath doc = fileTitleCap filepath)
    ∧ (doc = none → extract_title_from_html filepath doc = fileTitleRaw filepath)
    ∧ (doc ≠ none →
        pyStrip (extract_title_from_html filepath doc)
          = extract_title_from_html filepath doc) := by
  refine ⟨?_, ?_, ?_, ?_, ?_, ?_⟩
  · rintro d t rfl ht
    simp [extract_title_from_html, ht]
  · rintro d s rfl hs hne hnb
    simp [titleFromTitleTag, hs, hne, hnb]
  · rintro d h rfl ht hh hne
    simp [extract_title_from_html, ht, hh, hne]
  · rintro d rfl ht hh
    rcases hh with hh | hh <;> simp [extract_title_from_html, ht, hh]
  · rintro rfl
    rfl
  · intro hne
    obtain ⟨d, rfl⟩ := Option.ne_none_iff_exists'.mp hne
    cases hft : titleFromTitleTag d with
    | some t =>
      have hres : extract_title_from_html filepath (some d) = t := by
        simp [extract_title_from_html, hft]
      rw [hres]
      obtain ⟨s, hs, hsne, ht, htne⟩ : ∃ s, d.titleString = some s ∧ s ≠ ""
          ∧ t = stripBrand (pyStrip s) ∧ stripBrand (pyStrip s) ≠ "" := by
        unfold titleFromTitleTag at hft
        cases hts : d.titleString with
        | none => rw [hts] at hft; simp at hft
        | some s =>
          rw [hts] at hft
          by_cases hse : s = ""
          · simp [hse] at hft
          · by_cases hbe : stripBrand (pyStrip s) = ""
            · simp [hse, hbe] at hft
            · simp only [hse, hbe, ne_eq, not_false_eq_true, if_pos,
                if_true] at hft
              rw [Option.some.injEq] at hft
              exact ⟨s, rfl, hse, hft.symm, hbe⟩
      subst ht
      have hedges := @reSubBrand_edges (pyStripL s.data)
        (fun _ hc => pyStripL_head? hc) (fun _ hc => pyStripL_getLast? hc)
      exact congrArg String.mk (pyStripL_eq_self hedges.1 hedges.2)
    | none =>
      cases hh : d.h1Text with
      | none =>
        have hres : extract_title_from_html filepath (some d)
            = fileTitleCap filepath := by
          simp [extract_title_from_html, hft, hh]
        rw [hres]
        exact fileTitleCap_trimmed filepath
      | some h =>
        by_cases hhe : h = ""
        · have hres : extract_title_from_html filepath (some d)
              = fileTitleCap filepath := by
            simp [extract_title_from_html, hft, hh, hhe]
          rw [hres]
          exact fileTitleCap_trimmed filepath
        · have hres : extract_title_from_html filepath (some d)
              = pyStrip h := by
            simp [extract_title_from_html, hft, hh, hhe]
          rw [hres]
          exact congrArg String.mk (pyStripL_idem h.data)

/-- C3 (witness): the `h1` branch at a concrete document without a usable
title element; the result is the trimmed `h1` text. -/
theorem extract_title_amended_witness :
    extract_title_from_html "x.html" (some ⟨none, some " Cells "⟩)
      = pyStrip " Cells " :=
  (extract_title_amended "x.html" (some ⟨none, some " Cells "⟩)).2.2.1
    ⟨none, some " Cells "⟩ " Cells " rfl (by decide) rfl (by decide)

end Epub




